import Mathlib

/-!
Verification model of `atom/src/class_map.cpp`: the fixed-capacity
open-addressing hash table (`ClassMap`) mapping interned attribute-name
strings to `Member` descriptors and dense storage indices.

Modelling conventions:
* `PyStringObject*` keys are interned strings; `pystr_equal` compares by
  identity-then-content, so a key is represented by a `Nat` identifier
  and key equality is `Nat` equality.
* `pystr_hash` (from the repository's `utils.h`, not part of the given
  source) is modelled from the spec as an arbitrary stable 32-bit hash:
  a caller-supplied function `h : Nat → Nat`, reduced `% 2 ^ 32` at every
  use site exactly where the C code holds it in a `uint32_t`.
* Machine integers are `Nat` with explicit `% 2 ^ 32` where a `uint32_t`
  could wrap; `& mask` / `<< 2` / `>> 5` are `&&&` / `<<<` / `>>>`.
* The `while (true)` probe loops are embedded with explicit fuel
  `allocated + 8`; the value `none` means the loop did not return within
  the fuel.  The probe-coverage theorems below show the fuel is never
  exhausted under the load-factor invariant, matching the comment
  "table is never full, thus will always terminate in-loop".
-/

/-- A Python object at the granularity the `ClassMap` code observes it:
`PyString_Check` distinguishes strings, `Member_Check` distinguishes
descriptor (`Member`) instances; everything else is opaque. -/
inductive PyObject where
  | str : Nat → PyObject
  | member : Nat → PyObject
  | other : Nat → PyObject
deriving DecidableEq, Repr

/-- Model of the C `PyString_Check( key )` test. -/
def PyString_Check : PyObject → Bool
  | .str _ => true
  | _ => false

/-- Model of the C `Member_Check( value )` test. -/
def Member_Check : PyObject → Bool
  | .member _ => true
  | _ => false

/-- The identifier of a string object; the model of the C cast
`( PyStringObject* )key`, applied only after `PyString_Check` passed. -/
def PyObject.strId : PyObject → Nat
  | .str n => n
  | .member n => n
  | .other n => n

/-- One slot of the table: `struct ClassMapEntry { PyStringObject* name;
Member* member; uint32_t index; }`.  A slot whose `name` pointer is null
is modelled as `none` at the `Option ClassMapEntry` level, so an
occupied slot always carries all three fields, as in the source where
`name`, `member` and `index` are written together. -/
structure ClassMapEntry where
  name : Nat
  member : PyObject
  index : Nat
deriving DecidableEq, Repr

/-- The table: `allocated` slots (a power of two), the entry array, and
`member_count`, the number of members inserted so far (used to hand out
the next dense index). -/
structure ClassMap where
  allocated : Nat
  entries : List (Option ClassMapEntry)
  member_count : Nat
deriving DecidableEq, Repr

/-- The freshly allocated table of `ClassMap_new`: `memset( entrymem, 0,
memsize )` zeroes every slot, `member_count` starts at `0`. -/
def ClassMap.init (allocated : Nat) : ClassMap :=
  { allocated := allocated
    entries := List.replicate allocated none
    member_count := 0 }

/-- One step of CPython's collision resolution scheme, shared verbatim by
`ClassMap_LookupMember` and `insert_member`:
`bucket = ( ( bucket << 2 ) + bucket + hash + 1 ) & mask;` computed in
`uint32_t` arithmetic, hence the explicit `% 2 ^ 32` before masking. -/
def probeNext (mask hash bucket : Nat) : Nat :=
  (((bucket <<< 2) + bucket + hash + 1) % 2 ^ 32) &&& mask

/-- The `(bucket, hash)` state of the probe loop after `i` iterations,
started from `bucket = hash & mask` as both loops do. -/
def probePair (mask h0 : Nat) : Nat → Nat × Nat
  | 0 => (h0 &&& mask, h0)
  | i + 1 =>
      (probeNext mask (probePair mask h0 i).2 (probePair mask h0 i).1,
       (probePair mask h0 i).2 >>> 5)

/-- The bucket probed at step `i`. -/
def probeB (mask h0 i : Nat) : Nat :=
  (probePair mask h0 i).1

/-- The (progressively right-shifted) hash held at step `i`. -/
def probeH (mask h0 i : Nat) : Nat :=
  (probePair mask h0 i).2

/-- The pure linear-congruential step `bucket = (5 * bucket + 1) % n` the
probe recurrence degenerates to once the shifted hash has reached `0`. -/
def lcg (n x : Nat) : Nat := (5 * x + 1) % n

theorem probeH_eq_shift (mask h0 : Nat) : ∀ i, probeH mask h0 i = h0 >>> (5 * i) := by
  intro i
  induction i with
  | zero => simp [probeH, probePair]
  | succ i ih =>
      show (probePair mask h0 i).2 >>> 5 = _
      rw [show (probePair mask h0 i).2 = probeH mask h0 i from rfl, ih,
        ← Nat.shiftRight_add, Nat.mul_succ]

theorem probeH_eq_zero (mask h0 : Nat) (hh : h0 < 2 ^ 32) {i : Nat} (hi : 7 ≤ i) :
    probeH mask h0 i = 0 := by
  rw [probeH_eq_shift, Nat.shiftRight_eq_div_pow]
  apply Nat.div_eq_of_lt
  calc h0 < 2 ^ 32 := hh
    _ ≤ 2 ^ (5 * i) := Nat.pow_le_pow_right (by norm_num) (by omega)

theorem probeB_zero (mask h0 : Nat) : probeB mask h0 0 = h0 &&& mask := rfl

theorem probeB_succ (mask h0 i : Nat) :
    probeB mask h0 (i + 1) = probeNext mask (probeH mask h0 i) (probeB mask h0 i) := rfl

/-- With a power-of-two capacity dividing `2 ^ 32`, the bit-twiddled
probe step is plain modular arithmetic. -/
theorem probeNext_eq_mod {K : Nat} (hK : K ≤ 32) (hash bucket : Nat) :
    probeNext (2 ^ K - 1) hash bucket = (5 * bucket + hash + 1) % 2 ^ K := by
  unfold probeNext
  rw [Nat.and_pow_two_sub_one_eq_mod,
    Nat.mod_mod_of_dvd _ (Nat.pow_dvd_pow 2 hK), Nat.shiftLeft_eq]
  congr 1
  ring

theorem probeB_lt {K : Nat} (hK : K ≤ 32) (h0 : Nat) :
    ∀ i, probeB (2 ^ K - 1) h0 i < 2 ^ K := by
  intro i
  cases i with
  | zero =>
      rw [probeB_zero, Nat.and_pow_two_sub_one_eq_mod]
      exact Nat.mod_lt _ (Nat.pos_pow_of_pos K (by norm_num))
  | succ i =>
      rw [probeB_succ, probeNext_eq_mod hK]
      exact Nat.mod_lt _ (Nat.pos_pow_of_pos K (by norm_num))

theorem probeB_succ_lcg {K : Nat} (hK : K ≤ 32) (h0 : Nat) (hh : h0 < 2 ^ 32)
    {i : Nat} (hi : 7 ≤ i) :
    probeB (2 ^ K - 1) h0 (i + 1) = lcg (2 ^ K) (probeB (2 ^ K - 1) h0 i) := by
  rw [probeB_succ, probeNext_eq_mod hK, probeH_eq_zero _ _ hh hi, lcg]

theorem probeB_seven_add {K : Nat} (hK : K ≤ 32) (h0 : Nat) (hh : h0 < 2 ^ 32) :
    ∀ j, probeB (2 ^ K - 1) h0 (7 + j) = (lcg (2 ^ K))^[j] (probeB (2 ^ K - 1) h0 7) := by
  intro j
  induction j with
  | zero => rfl
  | succ j ih =>
      rw [show 7 + (j + 1) = (7 + j) + 1 from rfl,
        probeB_succ_lcg hK h0 hh (by omega), ih, Function.iterate_succ_apply']

/-! ### Full period of the degenerate probe recurrence

Once the shifted hash is `0` the probe recurrence is `x ↦ (5 x + 1) % 2 ^ K`,
a linear-congruential map with full period `2 ^ K`: elementary number theory
on the multiplicative order of `5` modulo powers of two. -/

theorem one_add_pow_decomp (m : Nat) : ∀ b : Nat, ∃ t, (1 + m) ^ b = 1 + b * m + m ^ 2 * t := by
  intro b
  induction b with
  | zero => exact ⟨0, by ring⟩
  | succ b ih =>
      obtain ⟨t, ht⟩ := ih
      refine ⟨t + t * m + b, ?_⟩
      rw [pow_succ, ht]
      ring

theorem five_pow_two_pow (a : Nat) :
    ∃ u, u % 2 = 1 ∧ 5 ^ 2 ^ a = 1 + 2 ^ (a + 2) * u := by
  induction a with
  | zero => exact ⟨1, by norm_num⟩
  | succ a ih =>
      obtain ⟨u, hu, h5⟩ := ih
      refine ⟨u + 2 ^ (a + 1) * u ^ 2, ?_, ?_⟩
      · have h2 : 2 ^ (a + 1) * u ^ 2 % 2 = 0 := by
          have : (2 : Nat) ∣ 2 ^ (a + 1) * u ^ 2 :=
            Dvd.dvd.mul_right (dvd_pow_self 2 (Nat.succ_ne_zero a)) _
          omega
        omega
      · have hpow : (5 : Nat) ^ 2 ^ (a + 1) = (5 ^ 2 ^ a) ^ 2 := by
          rw [← pow_mul, pow_succ]
        rw [hpow, h5]
        ring

theorem five_pow_odd_decomp (a b : Nat) (hb : b % 2 = 1) :
    ∃ w, w % 2 = 1 ∧ 5 ^ (2 ^ a * b) = 1 + 2 ^ (a + 2) * w := by
  obtain ⟨u, hu, h5⟩ := five_pow_two_pow a
  obtain ⟨t, ht⟩ := one_add_pow_decomp (2 ^ (a + 2) * u) b
  refine ⟨b * u + 2 ^ (a + 2) * (u ^ 2 * t), ?_, ?_⟩
  · have h2 : 2 ^ (a + 2) * (u ^ 2 * t) % 2 = 0 := by
      have : (2 : Nat) ∣ 2 ^ (a + 2) * (u ^ 2 * t) :=
        Dvd.dvd.mul_right (dvd_pow_self 2 (Nat.succ_ne_zero (a + 1))) _
      omega
    have h3 : b * u % 2 = 1 := by
      rw [Nat.mul_mod, hu, hb]
    omega
  · rw [pow_mul, h5, ht]
    ring

theorem five_pow_order (k d : Nat) (hd : 0 < d) (hlt : d < 2 ^ k) :
    ¬ (5 ^ d ≡ 1 [MOD 2 ^ (k + 2)]) := by
  intro hmod
  obtain ⟨a, b, hbodd, rfl⟩ := Nat.exists_eq_two_pow_mul_odd hd.ne'
  obtain ⟨w, hw, h5⟩ := five_pow_odd_decomp a b (Nat.odd_iff.mp hbodd)
  have hdvd : 2 ^ (k + 2) ∣ 5 ^ (2 ^ a * b) - 1 :=
    (Nat.modEq_iff_dvd' (Nat.one_le_pow _ _ (by norm_num))).mp hmod.symm
  have hsub : 5 ^ (2 ^ a * b) - 1 = 2 ^ (a + 2) * w := by omega
  rw [hsub] at hdvd
  have hcop : Nat.Coprime (2 ^ (k + 2)) w :=
    Nat.Coprime.pow_left _ (Nat.coprime_two_left.mpr (Nat.odd_iff.mpr hw))
  have hdvd2 : 2 ^ (k + 2) ∣ 2 ^ (a + 2) := hcop.dvd_of_dvd_mul_right hdvd
  have hle : k + 2 ≤ a + 2 :=
    (Nat.pow_le_pow_iff_right (by norm_num)).mp (Nat.le_of_dvd (Nat.pos_pow_of_pos _ (by norm_num)) hdvd2)
  have hka : 2 ^ k ≤ 2 ^ a := Nat.pow_le_pow_right (by norm_num) (by omega)
  have hb1 : 1 ≤ b := hbodd.pos
  have hab : 2 ^ a ≤ 2 ^ a * b := le_mul_of_one_le_right (Nat.zero_le _) hb1
  omega

theorem lcg_iterate_closed (k x : Nat) :
    ∀ i, 4 * (lcg (2 ^ k))^[i] x + 1 ≡ 5 ^ i * (4 * x + 1) [MOD 2 ^ (k + 2)] := by
  intro i
  induction i with
  | zero => simpa using Nat.ModEq.refl _
  | succ i ih =>
      have hstep : (lcg (2 ^ k))^[i + 1] x = (5 * (lcg (2 ^ k))^[i] x + 1) % 2 ^ k := by
        rw [Function.iterate_succ_apply']
        rfl
      have h1 : (5 * (lcg (2 ^ k))^[i] x + 1) % 2 ^ k ≡ 5 * (lcg (2 ^ k))^[i] x + 1 [MOD 2 ^ k] :=
        Nat.mod_modEq _ _
      have h2 : 4 * ((5 * (lcg (2 ^ k))^[i] x + 1) % 2 ^ k) + 1 ≡
          4 * (5 * (lcg (2 ^ k))^[i] x + 1) + 1 [MOD 2 ^ (k + 2)] := by
        have h4 : (4 : Nat) * 2 ^ k = 2 ^ (k + 2) := by ring
        rw [← h4]
        exact (h1.mul_left' 4).add_right 1
      have h3 : 4 * (5 * (lcg (2 ^ k))^[i] x + 1) + 1 = 5 * (4 * (lcg (2 ^ k))^[i] x + 1) := by
        ring
      have h5 : 5 * (4 * (lcg (2 ^ k))^[i] x + 1) ≡ 5 ^ (i + 1) * (4 * x + 1) [MOD 2 ^ (k + 2)] := by
        have := ih.mul_left 5
        calc 5 * (4 * (lcg (2 ^ k))^[i] x + 1)
            ≡ 5 * (5 ^ i * (4 * x + 1)) [MOD 2 ^ (k + 2)] := this
          _ = 5 ^ (i + 1) * (4 * x + 1) := by ring
      rw [hstep]
      exact (h3 ▸ h2).trans h5

theorem lcg_iterate_ne (k x : Nat) {i j : Nat} (hij : i < j) (hj : j < 2 ^ k) :
    (lcg (2 ^ k))^[i] x ≠ (lcg (2 ^ k))^[j] x := by
  intro heq
  have hA := lcg_iterate_closed k x i
  have hB := lcg_iterate_closed k x j
  rw [heq] at hA
  have hij5 : 5 ^ i * (4 * x + 1) ≡ 5 ^ j * (4 * x + 1) [MOD 2 ^ (k + 2)] :=
    hA.symm.trans hB
  have hcop1 : Nat.gcd (2 ^ (k + 2)) (4 * x + 1) = 1 :=
    Nat.Coprime.pow_left _ (Nat.coprime_two_left.mpr ⟨2 * x, by ring⟩)
  have h5i5j : 5 ^ i ≡ 5 ^ j [MOD 2 ^ (k + 2)] :=
    Nat.ModEq.cancel_right_of_coprime hcop1 hij5
  have hcop2 : Nat.gcd (2 ^ (k + 2)) (5 ^ i) = 1 :=
    Nat.Coprime.pow _ _ (by decide)
  have hsplit : (5 : Nat) ^ j = 5 ^ i * 5 ^ (j - i) := by
    rw [← pow_add]
    congr 1
    omega
  have hone : 1 ≡ 5 ^ (j - i) [MOD 2 ^ (k + 2)] := by
    refine Nat.ModEq.cancel_left_of_coprime hcop2 ?_
    rw [Nat.mul_one, ← hsplit]
    exact h5i5j
  exact five_pow_order k (j - i) (by omega) (by omega) hone.symm

theorem lcg_iterate_lt (k x : Nat) (hx : x < 2 ^ k) : ∀ i, (lcg (2 ^ k))^[i] x < 2 ^ k := by
  intro i
  induction i with
  | zero => exact hx
  | succ i ih =>
      rw [Function.iterate_succ_apply']
      exact Nat.mod_lt _ (Nat.pos_pow_of_pos _ (by norm_num))

theorem lcg_iterate_surj (k x : Nat) (hx : x < 2 ^ k) (s : Nat) (hs : s < 2 ^ k) :
    ∃ i, i < 2 ^ k ∧ (lcg (2 ^ k))^[i] x = s := by
  have hinj : Function.Injective
      (fun i : Fin (2 ^ k) => (⟨(lcg (2 ^ k))^[i.1] x, lcg_iterate_lt k x hx i.1⟩ : Fin (2 ^ k))) := by
    intro i j hijf
    have hval : (lcg (2 ^ k))^[i.1] x = (lcg (2 ^ k))^[j.1] x := congrArg Fin.val hijf
    rcases Nat.lt_trichotomy i.1 j.1 with hlt | heq | hgt
    · exact absurd hval (lcg_iterate_ne k x hlt j.2)
    · exact Fin.ext heq
    · exact absurd hval.symm (lcg_iterate_ne k x hgt i.2)
  obtain ⟨i, hi⟩ := Finite.injective_iff_surjective.mp hinj ⟨s, hs⟩
  exact ⟨i.1, i.2, congrArg Fin.val hi⟩

/-- Every slot of a `2 ^ K`-sized table is probed within the first
`7 + 2 ^ K` steps of the probe sequence: the perturbation hash is
exhausted after at most 7 right-shifts by 5, after which the recurrence
is the full-period congruential map. -/
theorem probe_visits_all {K : Nat} (hK : K ≤ 32) (h0 : Nat) (hh : h0 < 2 ^ 32)
    (s : Nat) (hs : s < 2 ^ K) : ∃ i, i ≤ 6 + 2 ^ K ∧ probeB (2 ^ K - 1) h0 i = s := by
  obtain ⟨j, hj, hjs⟩ := lcg_iterate_surj K (probeB (2 ^ K - 1) h0 7) (probeB_lt hK h0 7) s hs
  exact ⟨7 + j, by omega, by rw [probeB_seven_add hK h0 hh]; exact hjs⟩

/-! ### The table operations -/

/-- Which of the two `return` statements the lookup loop exits through:
the empty-slot return at line 44 of `class_map.cpp` (key absent, output
locations untouched) or the key-match return at line 50. -/
inductive LookupExit where
  | emptySlot : LookupExit
  | found : LookupExit
deriving DecidableEq, Repr

/-- The `while( true )` loop of `ClassMap_LookupMember`, with explicit
fuel.  `memberOut`/`indexOut` model the contents of the caller-supplied
`Member** member` / `uint32_t* index` locations, which the loop writes
only in the key-match branch. -/
def lookupLoop (entries : List (Option ClassMapEntry)) (name mask : Nat) :
    Nat → Nat → Nat → PyObject → Nat → Option (LookupExit × PyObject × Nat)
  | 0, _, _, _, _ => none
  | fuel + 1, bucket, hash, memberOut, indexOut =>
    match entries.getD bucket none with
    | none => some (.emptySlot, memberOut, indexOut)
    | some entry =>
      if entry.name = name then
        some (.found, entry.member, entry.index)
      else
        lookupLoop entries name mask fuel (probeNext mask hash bucket) (hash >>> 5)
          memberOut indexOut

/-- `ClassMap_LookupMember`: hash the name, start at `hash & mask`, probe.
`h` models `utils::pystr_hash` (see the header comment). -/
def ClassMap_LookupMember (h : Nat → Nat) (map : ClassMap) (name : Nat)
    (memberOut : PyObject) (indexOut : Nat) : Option (LookupExit × PyObject × Nat) :=
  lookupLoop map.entries name (map.allocated - 1) (map.allocated + 8)
    (h name % 2 ^ 32 &&& (map.allocated - 1)) (h name % 2 ^ 32) memberOut indexOut

/-- The `while( true )` loop of `insert_member`, with explicit fuel: it
claims the first empty slot on the probe path for
`{ name, member, index = member_count }`. -/
def insertLoop (entries : List (Option ClassMapEntry)) (name : Nat) (memberV : PyObject)
    (count mask : Nat) : Nat → Nat → Nat → Option (List (Option ClassMapEntry))
  | 0, _, _ => none
  | fuel + 1, bucket, hash =>
    match entries.getD bucket none with
    | none => some (entries.set bucket (some ⟨name, memberV, count⟩))
    | some _ =>
        insertLoop entries name memberV count mask fuel (probeNext mask hash bucket) (hash >>> 5)

/-- `insert_member`: stores the pair at the first empty probed slot,
assigns `index = map->member_count++`. -/
def insert_member (h : Nat → Nat) (map : ClassMap) (name : Nat) (memberV : PyObject) :
    Option ClassMap :=
  match insertLoop map.entries name memberV map.member_count (map.allocated - 1)
      (map.allocated + 8) (h name % 2 ^ 32 &&& (map.allocated - 1)) (h name % 2 ^ 32) with
  | none => none
  | some es =>
      some { allocated := map.allocated, entries := es, member_count := map.member_count + 1 }

/-- The population pass of `ClassMap_new`: insert each pair in iteration
order (the `PyDict_Next` loop, restricted to well-typed pairs). -/
def insertAll (h : Nat → Nat) : List (Nat × PyObject) → ClassMap → Option ClassMap
  | [], m => some m
  | (k, v) :: rest, m =>
    match insert_member h m k v with
    | none => none
    | some m' => insertAll h rest m'

def npow2Loop (n : Nat) : Nat → Nat → Nat
  | 0, acc => acc
  | fuel + 1, acc => if n ≤ acc then acc else npow2Loop n fuel (2 * acc)

/-- Modelled from the spec: `utils::next_power_of_2` lives in the
repository's `utils.h`, which is not among the given sources.  Per §4.1
and concrete scenario 1 of the spec (`next_pow2(4) = 4`) it returns the
least power of two that is at least its argument. -/
def next_power_of_2 (n : Nat) : Nat := npow2Loop n n 1

/-- The capacity computation of `ClassMap_new` (lines 107–109):
`dsize = (uint32_t)PyDict_Size(members); count = max(dsize, 3u);
allocated = next_power_of_2(count * 4 / 3)`, all in `uint32_t`. -/
def planAllocated (dictSize : Nat) : Nat :=
  next_power_of_2 (max (dictSize % 2 ^ 32) 3 * 4 % 2 ^ 32 / 3)

/-- Outcome of `ClassMap_new`: a table, or the `py_expected_type_fail`
error naming the offending object and the expected type, or (a modelling
artifact) fuel exhaustion of the inner probe loop, proved unreachable
under the planner's capacity. -/
inductive BuildResult where
  | ok : ClassMap → BuildResult
  | typeFail : PyObject → String → BuildResult
  | stuck : BuildResult
deriving DecidableEq, Repr

/-- The `PyDict_Next` population loop of `ClassMap_new` (lines 121–135):
validate each key with `PyString_Check` and each value with
`Member_Check`, failing on the first violation, and insert valid pairs. -/
def buildLoop (h : Nat → Nat) : List (PyObject × PyObject) → ClassMap → BuildResult
  | [], m => .ok m
  | (key, value) :: rest, m =>
    if !PyString_Check key then .typeFail key "str"
    else if !Member_Check value then .typeFail value "Member"
    else
      match insert_member h m key.strId value with
      | none => .stuck
      | some m' => buildLoop h rest m'

/-- `ClassMap_new` restricted to its core: plan the capacity from the
dict size, zero the entry array, populate.  The `members` list is the
dict in iteration order; a Python dict cannot hold two equal keys. -/
def ClassMap_new (h : Nat → Nat) (members : List (PyObject × PyObject)) : BuildResult :=
  buildLoop h members (ClassMap.init (planAllocated members.length))

/-- `ClassMap_clear` (lines 140–154): `Py_CLEAR` both references of every
occupied slot, leaving every slot empty; `member_count` and the
allocation are untouched. -/
def ClassMap_clear (self : ClassMap) : ClassMap :=
  { self with entries := self.entries.map (fun _ => none) }

/-- `ClassMap_traverse` (lines 157–172): `Py_VISIT` the name and the
member of every occupied slot, in slot order.  The result is the visit
list handed to the cycle collector. -/
def ClassMap_traverse (self : ClassMap) : List (Nat ⊕ PyObject) :=
  self.entries.foldr
    (fun slot acc =>
      match slot with
      | none => acc
      | some entry => Sum.inl entry.name :: Sum.inr entry.member :: acc)
    []

theorem planAllocated_three : planAllocated 3 = 4 := by decide

theorem planAllocated_zero : planAllocated 0 = 4 := by decide

theorem planAllocated_six : planAllocated 6 = 8 := by decide

theorem insertAll_concrete :
    insertAll (fun n => n) [(1, .member 11), (2, .member 12), (3, .member 13)]
      (ClassMap.init 4) =
    some { allocated := 4
           entries := [none, some ⟨1, .member 11, 0⟩, some ⟨2, .member 12, 1⟩,
             some ⟨3, .member 13, 2⟩]
           member_count := 3 } := by decide

/-! ### List helper lemmas for the entry array -/

theorem getD_entries_eq (l : List (Option ClassMapEntry)) (s : Nat) :
    l.getD s none = (l[s]?).getD none := by
  simp [List.getD_eq_getElem?_getD]

theorem getD_some_getElem {l : List (Option ClassMapEntry)} {s : Nat} {e : ClassMapEntry}
    (hs : l.getD s none = some e) : l[s]? = some (some e) := by
  rw [getD_entries_eq] at hs
  cases hgs : l[s]? with
  | none => rw [hgs] at hs; exact absurd hs (by simp)
  | some o => rw [hgs] at hs; simp at hs; rw [hs]

theorem getD_some_mem {l : List (Option ClassMapEntry)} {s : Nat} {e : ClassMapEntry}
    (hs : l.getD s none = some e) : some e ∈ l :=
  List.getElem?_mem (getD_some_getElem hs)

theorem getD_some_lt {l : List (Option ClassMapEntry)} {s : Nat} {e : ClassMapEntry}
    (hs : l.getD s none = some e) : s < l.length := by
  have := getD_some_getElem hs
  rcases List.getElem?_eq_some_iff.mp this with ⟨hlt, _⟩
  exact hlt

theorem getD_set_self {l : List (Option ClassMapEntry)} {s : Nat} (hs : s < l.length)
    (o : Option ClassMapEntry) : (l.set s o).getD s none = o := by
  rw [getD_entries_eq, List.getElem?_set_self hs]
  rfl

theorem getD_set_ne {l : List (Option ClassMapEntry)} {s t : Nat} (hst : s ≠ t)
    (o : Option ClassMapEntry) : (l.set s o).getD t none = l.getD t none := by
  rw [getD_entries_eq, List.getElem?_set_ne hst, ← getD_entries_eq]

theorem getD_init (cap s : Nat) : (ClassMap.init cap).entries.getD s none = none := by
  rw [getD_entries_eq]
  show (List.replicate cap (none : Option ClassMapEntry))[s]?.getD none = none
  rcases Nat.lt_or_ge s cap with hlt | hge
  · rw [List.getElem?_replicate_of_lt hlt]
    rfl
  · rw [List.getElem?_replicate, if_neg (by omega)]
    rfl

theorem filterMap_set_of_none :
    ∀ (l : List (Option ClassMapEntry)) (s : Nat) (e : ClassMapEntry),
      l[s]? = some none →
      ((l.set s (some e)).filterMap id).Perm (e :: l.filterMap id) := by
  intro l
  induction l with
  | nil => intro s e hs; simp at hs
  | cons o rest ih =>
      intro s e hs
      cases s with
      | zero =>
          simp only [List.getElem?_cons_zero, Option.some_inj] at hs
          subst hs
          simp [List.set]
      | succ s =>
          simp only [List.getElem?_cons_succ] at hs
          have hperm := ih s e hs
          cases o with
          | none =>
              simpa [List.set, List.filterMap_cons] using hperm
          | some b =>
              simp only [List.set, List.filterMap_cons, id]
              exact (hperm.cons b).trans (List.Perm.swap e b _)

theorem filterMap_length_eq_of_no_none :
    ∀ l : List (Option ClassMapEntry), (∀ o ∈ l, o ≠ none) →
      (l.filterMap id).length = l.length := by
  intro l
  induction l with
  | nil => intro _; rfl
  | cons o rest ih =>
      intro hno
      cases o with
      | none => exact absurd rfl (hno none (by simp))
      | some b =>
          simp only [List.filterMap_cons, id, List.length_cons]
          rw [ih (fun o ho => hno o (by simp [ho]))]

theorem exists_none_slot {l : List (Option ClassMapEntry)}
    (hlt : (l.filterMap id).length < l.length) :
    ∃ s, s < l.length ∧ l[s]? = some none := by
  by_contra hno
  push_neg at hno
  have hm : ∀ o ∈ l, o ≠ none := by
    intro o ho hnone
    subst hnone
    obtain ⟨s, hs⟩ := List.getElem?_of_mem ho
    exact absurd hs (hno s (List.getElem?_eq_some_iff.mp hs).1)
  exact absurd (filterMap_length_eq_of_no_none l hm) (by omega)

/-! ### The pairs of the input dict, tagged with their dense index -/

/-- The entry each input pair is destined to become: pair `j` of the
iteration order receives dense index `start + j`. -/
def withIdx : List (Nat × PyObject) → Nat → List ClassMapEntry
  | [], _ => []
  | (k, v) :: rest, start => ⟨k, v, start⟩ :: withIdx rest (start + 1)

theorem withIdx_length : ∀ (l : List (Nat × PyObject)) (start : Nat),
    (withIdx l start).length = l.length := by
  intro l
  induction l with
  | nil => intro start; rfl
  | cons p rest ih =>
      intro start
      cases p
      simp [withIdx, ih]

theorem withIdx_append : ∀ (l : List (Nat × PyObject)) (k : Nat) (v : PyObject) (start : Nat),
    withIdx (l ++ [(k, v)]) start = withIdx l start ++ [⟨k, v, start + l.length⟩] := by
  intro l
  induction l with
  | nil => intro k v start; simp [withIdx]
  | cons p rest ih =>
      intro k v start
      cases p
      simp only [List.cons_append, withIdx, List.append_eq, ih, List.length_cons]
      have harith : start + 1 + rest.length = start + (rest.length + 1) := by omega
      rw [harith]

theorem mem_withIdx_sound : ∀ (l : List (Nat × PyObject)) (start : Nat) (e : ClassMapEntry),
    e ∈ withIdx l start →
    ∃ j, e.index = start + j ∧ l.get? j = some (e.name, e.member) := by
  intro l
  induction l with
  | nil => intro start e he; exact absurd he (by simp [withIdx])
  | cons p rest ih =>
      intro start e he
      obtain ⟨k, v⟩ := p
      rcases List.mem_cons.mp he with heq | hmem
      · subst heq
        exact ⟨0, rfl, rfl⟩
      · obtain ⟨j, hj, hget⟩ := ih (start + 1) e hmem
        exact ⟨j + 1, by omega, hget⟩

theorem mem_withIdx_complete :
    ∀ (l : List (Nat × PyObject)) (start j : Nat) (k : Nat) (v : PyObject),
      l.get? j = some (k, v) →
      (⟨k, v, start + j⟩ : ClassMapEntry) ∈ withIdx l start := by
  intro l
  induction l with
  | nil => intro start j k v hget; simp at hget
  | cons p rest ih =>
      intro start j k v hget
      obtain ⟨k', v'⟩ := p
      cases j with
      | zero =>
          simp only [List.get?_cons_zero, Option.some_inj] at hget
          obtain ⟨rfl, rfl⟩ := Prod.ext_iff.mp hget
          exact List.mem_cons_self _ _
      | succ j =>
          simp only [List.get?_cons_succ] at hget
          have := ih (start + 1) j k v hget
          exact List.mem_cons_of_mem _ (by
            have harith : start + (j + 1) = start + 1 + j := by omega
            rw [harith]
            exact this)

theorem map_index_withIdx : ∀ (l : List (Nat × PyObject)) (start : Nat),
    (withIdx l start).map (fun e => e.index) = List.range' start l.length := by
  intro l
  induction l with
  | nil => intro start; rfl
  | cons p rest ih =>
      intro start
      cases p
      simp [withIdx, ih, List.range'_succ]

/-! ### Behaviour of the probe loops along the probe sequence -/

theorem lookupLoop_scan_empty (entries : List (Option ClassMapEntry)) (name mask h0 : Nat)
    (memberOut : PyObject) (indexOut : Nat) :
    ∀ fuel t J : Nat, t ≤ J → J - t < fuel →
      (∀ i, t ≤ i → i < J →
        ∃ e, entries.getD (probeB mask h0 i) none = some e ∧ e.name ≠ name) →
      entries.getD (probeB mask h0 J) none = none →
      lookupLoop entries name mask fuel (probeB mask h0 t) (probeH mask h0 t) memberOut indexOut
        = some (.emptySlot, memberOut, indexOut) := by
  intro fuel
  induction fuel with
  | zero => intro t J htJ hfuel _ _; omega
  | succ fuel ih =>
      intro t J htJ hfuel hrun hJ
      by_cases heq : t = J
      · subst heq
        simp only [lookupLoop, hJ]
      · obtain ⟨e, he, hne⟩ := hrun t le_rfl (by omega)
        have hred : lookupLoop entries name mask (fuel + 1) (probeB mask h0 t)
              (probeH mask h0 t) memberOut indexOut
            = lookupLoop entries name mask fuel (probeB mask h0 (t + 1))
              (probeH mask h0 (t + 1)) memberOut indexOut := by
          rw [show probeB mask h0 (t + 1)
              = probeNext mask (probeH mask h0 t) (probeB mask h0 t) from rfl,
            show probeH mask h0 (t + 1) = probeH mask h0 t >>> 5 from rfl]
          simp only [lookupLoop, he, if_neg hne]
        rw [hred]
        exact ih (t + 1) J (by omega) (by omega) (fun i hi1 hi2 => hrun i (by omega) hi2) hJ

theorem lookupLoop_scan_found (entries : List (Option ClassMapEntry)) (name mask h0 : Nat)
    (memberOut : PyObject) (indexOut : Nat) (eJ : ClassMapEntry) :
    ∀ fuel t J : Nat, t ≤ J → J - t < fuel →
      (∀ i, t ≤ i → i < J →
        ∃ e, entries.getD (probeB mask h0 i) none = some e ∧ e.name ≠ name) →
      entries.getD (probeB mask h0 J) none = some eJ → eJ.name = name →
      lookupLoop entries name mask fuel (probeB mask h0 t) (probeH mask h0 t) memberOut indexOut
        = some (.found, eJ.member, eJ.index) := by
  intro fuel
  induction fuel with
  | zero => intro t J htJ hfuel _ _ _; omega
  | succ fuel ih =>
      intro t J htJ hfuel hrun hJ hname
      by_cases heq : t = J
      · subst heq
        simp only [lookupLoop, hJ, if_pos hname]
      · obtain ⟨e, he, hne⟩ := hrun t le_rfl (by omega)
        have hred : lookupLoop entries name mask (fuel + 1) (probeB mask h0 t)
              (probeH mask h0 t) memberOut indexOut
            = lookupLoop entries name mask fuel (probeB mask h0 (t + 1))
              (probeH mask h0 (t + 1)) memberOut indexOut := by
          rw [show probeB mask h0 (t + 1)
              = probeNext mask (probeH mask h0 t) (probeB mask h0 t) from rfl,
            show probeH mask h0 (t + 1) = probeH mask h0 t >>> 5 from rfl]
          simp only [lookupLoop, he, if_neg hne]
        rw [hred]
        exact ih (t + 1) J (by omega) (by omega) (fun i hi1 hi2 => hrun i (by omega) hi2) hJ hname

theorem insertLoop_scan (entries : List (Option ClassMapEntry)) (name : Nat)
    (memberV : PyObject) (count mask h0 : Nat) :
    ∀ fuel t J : Nat, t ≤ J → J - t < fuel →
      (∀ i, t ≤ i → i < J → entries.getD (probeB mask h0 i) none ≠ none) →
      entries.getD (probeB mask h0 J) none = none →
      insertLoop entries name memberV count mask fuel (probeB mask h0 t) (probeH mask h0 t)
        = some (entries.set (probeB mask h0 J) (some ⟨name, memberV, count⟩)) := by
  intro fuel
  induction fuel with
  | zero => intro t J htJ hfuel _ _; omega
  | succ fuel ih =>
      intro t J htJ hfuel hrun hJ
      by_cases heq : t = J
      · subst heq
        simp only [insertLoop, hJ]
      · obtain ⟨e, he⟩ := Option.ne_none_iff_exists'.mp (hrun t le_rfl (by omega))
        have hred : insertLoop entries name memberV count mask (fuel + 1) (probeB mask h0 t)
              (probeH mask h0 t)
            = insertLoop entries name memberV count mask fuel (probeB mask h0 (t + 1))
              (probeH mask h0 (t + 1)) := by
          rw [show probeB mask h0 (t + 1)
              = probeNext mask (probeH mask h0 t) (probeB mask h0 t) from rfl,
            show probeH mask h0 (t + 1) = probeH mask h0 t >>> 5 from rfl]
          simp only [insertLoop, he]
        rw [hred]
        exact ih (t + 1) J (by omega) (by omega) (fun i hi1 hi2 => hrun i (by omega) hi2) hJ

theorem lookupLoop_frame (entries : List (Option ClassMapEntry)) (name mask : Nat)
    (hk : ∀ e : ClassMapEntry, some e ∈ entries → e.name ≠ name) :
    ∀ (fuel bucket hash : Nat) (memberOut : PyObject) (indexOut : Nat)
      (r : LookupExit × PyObject × Nat),
      lookupLoop entries name mask fuel bucket hash memberOut indexOut = some r →
      r = (.emptySlot, memberOut, indexOut) := by
  intro fuel
  induction fuel with
  | zero =>
      intro bucket hash memberOut indexOut r hr
      exact absurd hr (by simp [lookupLoop])
  | succ fuel ih =>
      intro bucket hash memberOut indexOut r hr
      cases hsc : entries.getD bucket none with
      | none =>
          simp only [lookupLoop, hsc, Option.some_inj] at hr
          exact hr.symm
      | some e =>
          have hne : e.name ≠ name := hk e (getD_some_mem hsc)
          simp only [lookupLoop, hsc, if_neg hne] at hr
          exact ih _ _ _ _ _ hr

/-! ### Stop conditions and loop termination points -/

/-- The lookup loop stops at probe step `i`: empty slot or key match. -/
def lookupStop (entries : List (Option ClassMapEntry)) (name mask h0 i : Nat) : Bool :=
  match entries.getD (probeB mask h0 i) none with
  | none => true
  | some e => e.name == name

/-- The insert loop stops at probe step `i`: empty slot. -/
def insertStop (entries : List (Option ClassMapEntry)) (mask h0 i : Nat) : Bool :=
  (entries.getD (probeB mask h0 i) none).isNone

theorem lookupStop_eq_false {entries : List (Option ClassMapEntry)} {name mask h0 i : Nat}
    (hst : lookupStop entries name mask h0 i = false) :
    ∃ e, entries.getD (probeB mask h0 i) none = some e ∧ e.name ≠ name := by
  unfold lookupStop at hst
  cases hsc : entries.getD (probeB mask h0 i) none with
  | none => rw [hsc] at hst; cases hst
  | some e =>
      rw [hsc] at hst
      exact ⟨e, rfl, by simpa using hst⟩

theorem lookupLoop_scan_empty_start (entries : List (Option ClassMapEntry))
    (name mask h0 : Nat) (memberOut : PyObject) (indexOut : Nat) (fuel J : Nat)
    (hfuel : J < fuel)
    (hrun : ∀ i, i < J → ∃ e, entries.getD (probeB mask h0 i) none = some e ∧ e.name ≠ name)
    (hJ : entries.getD (probeB mask h0 J) none = none) :
    lookupLoop entries name mask fuel (h0 &&& mask) h0 memberOut indexOut
      = some (.emptySlot, memberOut, indexOut) :=
  lookupLoop_scan_empty entries name mask h0 memberOut indexOut fuel 0 J (Nat.zero_le _)
    (by omega) (fun i _ hi => hrun i hi) hJ

theorem lookupLoop_scan_found_start (entries : List (Option ClassMapEntry))
    (name mask h0 : Nat) (memberOut : PyObject) (indexOut : Nat) (eJ : ClassMapEntry)
    (fuel J : Nat) (hfuel : J < fuel)
    (hrun : ∀ i, i < J → ∃ e, entries.getD (probeB mask h0 i) none = some e ∧ e.name ≠ name)
    (hJ : entries.getD (probeB mask h0 J) none = some eJ) (hname : eJ.name = name) :
    lookupLoop entries name mask fuel (h0 &&& mask) h0 memberOut indexOut
      = some (.found, eJ.member, eJ.index) :=
  lookupLoop_scan_found entries name mask h0 memberOut indexOut eJ fuel 0 J (Nat.zero_le _)
    (by omega) (fun i _ hi => hrun i hi) hJ hname

theorem insertLoop_scan_start (entries : List (Option ClassMapEntry)) (name : Nat)
    (memberV : PyObject) (count mask h0 : Nat) (fuel J : Nat) (hfuel : J < fuel)
    (hrun : ∀ i, i < J → entries.getD (probeB mask h0 i) none ≠ none)
    (hJ : entries.getD (probeB mask h0 J) none = none) :
    insertLoop entries name memberV count mask fuel (h0 &&& mask) h0
      = some (entries.set (probeB mask h0 J) (some ⟨name, memberV, count⟩)) :=
  insertLoop_scan entries name memberV count mask h0 fuel 0 J (Nat.zero_le _)
    (by omega) (fun i _ hi => hrun i hi) hJ

theorem getD_none_getElem {l : List (Option ClassMapEntry)} {s : Nat} (hs : s < l.length)
    (hd : l.getD s none = none) : l[s]? = some none := by
  rw [getD_entries_eq] at hd
  cases hsc : l[s]? with
  | none => exact absurd (List.getElem?_eq_none_iff.mp hsc) (by omega)
  | some o => rw [hsc] at hd; simp at hd; rw [hd]

theorem getD_set_ne_none {l : List (Option ClassMapEntry)} {s t : Nat} {e : ClassMapEntry}
    (hs : s < l.length) (ht : l.getD t none ≠ none) :
    (l.set s (some e)).getD t none ≠ none := by
  by_cases hst : s = t
  · subst hst
    rw [getD_set_self hs]
    simp
  · rw [getD_set_ne hst]
    exact ht

/-! ### The construction invariant -/

/-- The invariant tying a partially built table to the list `inserted` of
pairs inserted so far, for a hash function `h` and capacity `cap`:
the bookkeeping fields agree, the occupied slots are exactly the inserted
pairs tagged with their dense indices (as a multiset), and every occupied
slot lies on the probe path of its own key with all earlier probed slots
occupied — the reason a later lookup can never hit an empty slot before
finding its key. -/
def ClassMapInv (h : Nat → Nat) (cap : Nat) (inserted : List (Nat × PyObject))
    (m : ClassMap) : Prop :=
  m.allocated = cap ∧
  m.entries.length = cap ∧
  m.member_count = inserted.length ∧
  (m.entries.filterMap id).Perm (withIdx inserted 0) ∧
  ∀ s e, m.entries.getD s none = some e →
    ∃ j, j ≤ 6 + cap ∧ probeB (cap - 1) (h e.name % 2 ^ 32) j = s ∧
      ∀ i, i < j → m.entries.getD (probeB (cap - 1) (h e.name % 2 ^ 32) i) none ≠ none

theorem filterMap_id_replicate_none :
    ∀ n : Nat, ((List.replicate n (none : Option ClassMapEntry)).filterMap id) = [] := by
  intro n
  induction n with
  | zero => rfl
  | succ n ih => simp [List.replicate_succ, List.filterMap_cons, ih]

theorem ClassMapInv_init (h : Nat → Nat) (cap : Nat) :
    ClassMapInv h cap [] (ClassMap.init cap) := by
  refine ⟨rfl, by simp [ClassMap.init], rfl, ?_, ?_⟩
  · show ((List.replicate cap (none : Option ClassMapEntry)).filterMap id).Perm (withIdx [] 0)
    rw [filterMap_id_replicate_none]
    rfl
  · intro s e hse
    rw [getD_init] at hse
    cases hse


theorem insert_member_preserves (h : Nat → Nat) (K : Nat) (hK : K ≤ 32)
    (inserted : List (Nat × PyObject)) (m : ClassMap)
    (hinv : ClassMapInv h (2 ^ K) inserted m)
    (hroom : inserted.length < 2 ^ K) (k : Nat) (v : PyObject) :
    ∃ J, J ≤ 6 + 2 ^ K ∧
      m.entries.getD (probeB (2 ^ K - 1) (h k % 2 ^ 32) J) none = none ∧
      insert_member h m k v = some
        { allocated := 2 ^ K
          entries := m.entries.set (probeB (2 ^ K - 1) (h k % 2 ^ 32) J)
            (some ⟨k, v, m.member_count⟩)
          member_count := m.member_count + 1 } ∧
      ClassMapInv h (2 ^ K) (inserted ++ [(k, v)])
        { allocated := 2 ^ K
          entries := m.entries.set (probeB (2 ^ K - 1) (h k % 2 ^ 32) J)
            (some ⟨k, v, m.member_count⟩)
          member_count := m.member_count + 1 } := by
  obtain ⟨halloc, hlen, hcount, hperm, hpath⟩ := hinv
  have hocc : (m.entries.filterMap id).length = inserted.length :=
    hperm.length_eq.trans (withIdx_length _ _)
  have hltlen : (m.entries.filterMap id).length < m.entries.length := by
    rw [hocc, hlen]; exact hroom
  obtain ⟨s, hs, hsnone⟩ := exists_none_slot hltlen
  have hh0 : h k % 2 ^ 32 < 2 ^ 32 := Nat.mod_lt _ (by norm_num)
  obtain ⟨i0, hi0, hi0s⟩ := probe_visits_all hK (h k % 2 ^ 32) hh0 s (by omega)
  have hsgetD : m.entries.getD s none = none := by
    rw [getD_entries_eq, hsnone]; rfl
  have hstop0 : insertStop m.entries (2 ^ K - 1) (h k % 2 ^ 32) i0 = true := by
    unfold insertStop
    rw [hi0s, hsgetD]
    rfl
  have hex : ∃ i, insertStop m.entries (2 ^ K - 1) (h k % 2 ^ 32) i = true := ⟨i0, hstop0⟩
  have hJle : Nat.find hex ≤ 6 + 2 ^ K := le_trans (Nat.find_min' hex hstop0) hi0
  have hJnone : m.entries.getD (probeB (2 ^ K - 1) (h k % 2 ^ 32) (Nat.find hex)) none
      = none := by
    have := Nat.find_spec hex
    unfold insertStop at this
    exact Option.isNone_iff_eq_none.mp this
  have hJrun : ∀ i, i < Nat.find hex →
      m.entries.getD (probeB (2 ^ K - 1) (h k % 2 ^ 32) i) none ≠ none := by
    intro i hi hnone
    exact Nat.find_min hex hi (by unfold insertStop; rw [hnone]; rfl)
  have hsnewlt : probeB (2 ^ K - 1) (h k % 2 ^ 32) (Nat.find hex) < m.entries.length := by
    have := probeB_lt hK (h k % 2 ^ 32) (Nat.find hex)
    omega
  have hscan := insertLoop_scan_start m.entries k v m.member_count (2 ^ K - 1)
    (h k % 2 ^ 32) (2 ^ K + 8) (Nat.find hex) (by omega) hJrun hJnone
  refine ⟨Nat.find hex, hJle, hJnone, ?_, ?_, ?_, ?_, ?_, ?_⟩
  · unfold insert_member
    rw [halloc, hscan]
  · rfl
  · simp [hlen]
  · simp [hcount]
  · have hsetperm := filterMap_set_of_none m.entries
      (probeB (2 ^ K - 1) (h k % 2 ^ 32) (Nat.find hex)) ⟨k, v, m.member_count⟩
      (getD_none_getElem hsnewlt hJnone)
    show ((m.entries.set _ _).filterMap id).Perm _
    rw [withIdx_append, Nat.zero_add, ← hcount]
    refine hsetperm.trans ?_
    exact (hperm.cons _).trans (List.perm_append_singleton _ _).symm
  · intro s' e' hs'e'
    by_cases heqs : probeB (2 ^ K - 1) (h k % 2 ^ 32) (Nat.find hex) = s'
    · subst heqs
      rw [getD_set_self hsnewlt] at hs'e'
      have he' : e' = ⟨k, v, m.member_count⟩ := by
        cases hs'e'; rfl
      subst he'
      exact ⟨Nat.find hex, hJle, rfl,
        fun i hi => getD_set_ne_none hsnewlt (hJrun i hi)⟩
    · rw [getD_set_ne heqs] at hs'e'
      obtain ⟨j, hj1, hj2, hj3⟩ := hpath s' e' hs'e'
      exact ⟨j, hj1, hj2, fun i hi => getD_set_ne_none hsnewlt (hj3 i hi)⟩

theorem insertAll_inv (h : Nat → Nat) (K : Nat) (hK : K ≤ 32) :
    ∀ (pairs inserted : List (Nat × PyObject)) (m : ClassMap),
      ClassMapInv h (2 ^ K) inserted m →
      inserted.length + pairs.length ≤ 2 ^ K →
      ∃ m', insertAll h pairs m = some m' ∧ ClassMapInv h (2 ^ K) (inserted ++ pairs) m' := by
  intro pairs
  induction pairs with
  | nil =>
      intro inserted m hinv hlen
      exact ⟨m, rfl, by simpa using hinv⟩
  | cons p rest ih =>
      intro inserted m hinv hlen
      obtain ⟨k, v⟩ := p
      obtain ⟨J, _, _, hm1, hinv1⟩ :=
        insert_member_preserves h K hK inserted m hinv (by simp at hlen; omega) k v
      obtain ⟨m', hm', hinv'⟩ := ih (inserted ++ [(k, v)]) _ hinv1 (by simp at hlen ⊢; omega)
      refine ⟨m', ?_, ?_⟩
      · simp only [insertAll, hm1]
        exact hm'
      · have harr : inserted ++ [(k, v)] ++ rest = inserted ++ (k, v) :: rest := by simp
        rw [← harr]
        exact hinv'

/-- Case analysis of a terminating lookup: the loop stops at the first
probe step holding an empty slot or a matching key, returning through
the corresponding `return` statement. -/
theorem ClassMap_LookupMember_cases (h : Nat → Nat) (m : ClassMap) (name : Nat)
    (memberOut : PyObject) (indexOut : Nat) {i0 : Nat} (hi0 : i0 ≤ 6 + m.allocated)
    (hstop : lookupStop m.entries name (m.allocated - 1) (h name % 2 ^ 32) i0 = true) :
    ∃ J, J ≤ i0 ∧
      (∀ i, i < J → ∃ e,
        m.entries.getD (probeB (m.allocated - 1) (h name % 2 ^ 32) i) none = some e ∧
        e.name ≠ name) ∧
      ((m.entries.getD (probeB (m.allocated - 1) (h name % 2 ^ 32) J) none = none ∧
          ClassMap_LookupMember h m name memberOut indexOut
            = some (.emptySlot, memberOut, indexOut)) ∨
        (∃ e, m.entries.getD (probeB (m.allocated - 1) (h name % 2 ^ 32) J) none = some e ∧
          e.name = name ∧
          ClassMap_LookupMember h m name memberOut indexOut
            = some (.found, e.member, e.index))) := by
  have hex : ∃ i, lookupStop m.entries name (m.allocated - 1) (h name % 2 ^ 32) i = true :=
    ⟨i0, hstop⟩
  have hJle : Nat.find hex ≤ i0 := Nat.find_min' hex hstop
  have hrun : ∀ i, i < Nat.find hex → ∃ e,
      m.entries.getD (probeB (m.allocated - 1) (h name % 2 ^ 32) i) none = some e ∧
      e.name ≠ name := by
    intro i hi
    exact lookupStop_eq_false (by simpa using Nat.find_min hex hi)
  refine ⟨Nat.find hex, hJle, hrun, ?_⟩
  have hspec := Nat.find_spec hex
  unfold lookupStop at hspec
  cases hsc : m.entries.getD
      (probeB (m.allocated - 1) (h name % 2 ^ 32) (Nat.find hex)) none with
  | none =>
      left
      refine ⟨rfl, ?_⟩
      unfold ClassMap_LookupMember
      exact lookupLoop_scan_empty_start m.entries name (m.allocated - 1)
        (h name % 2 ^ 32) memberOut indexOut (m.allocated + 8) (Nat.find hex)
        (by omega) hrun hsc
  | some e =>
      rw [hsc] at hspec
      have hename : e.name = name := by simpa using hspec
      right
      refine ⟨e, rfl, hename, ?_⟩
      unfold ClassMap_LookupMember
      exact lookupLoop_scan_found_start m.entries name (m.allocated - 1)
        (h name % 2 ^ 32) memberOut indexOut e (m.allocated + 8) (Nat.find hex)
        (by omega) hrun hsc hename

/-- C1: Round-trip.  For every mapping with unique interned-string keys
and descriptor values, after the table is built by inserting each pair
with `insert_member` (into the zeroed table of a power-of-two capacity
at least the number of pairs, as the planner provides),
`ClassMap_LookupMember` on each inserted name returns, through the
key-match exit, exactly the descriptor inserted for it together with the
dense index assigned at insertion (its position in insertion order). -/
theorem classMap_roundtrip (h : Nat → Nat) (K : Nat) (hK : K ≤ 32)
    (pairs : List (Nat × PyObject)) (hnd : (pairs.map Prod.fst).Nodup)
    (hlen : pairs.length ≤ 2 ^ K) :
    ∃ m, insertAll h pairs (ClassMap.init (2 ^ K)) = some m ∧
      ∀ (i k : Nat) (v : PyObject) (memberOut : PyObject) (indexOut : Nat),
        pairs[i]? = some (k, v) →
        ClassMap_LookupMember h m k memberOut indexOut = some (.found, v, i) := by
  obtain ⟨m, hm, hinv⟩ := insertAll_inv h K hK pairs [] (ClassMap.init (2 ^ K))
    (ClassMapInv_init h (2 ^ K)) (by simpa using hlen)
  rw [List.nil_append] at hinv
  refine ⟨m, hm, ?_⟩
  intro i k v memberOut indexOut hget
  obtain ⟨halloc, hlenE, hcount, hperm, hpath⟩ := hinv
  have hgetq : pairs.get? i = some (k, v) := by
    rw [List.get?_eq_getElem?]; exact hget
  have hmemW : (⟨k, v, i⟩ : ClassMapEntry) ∈ withIdx pairs 0 := by
    have hmw := mem_withIdx_complete pairs 0 i k v hgetq
    simpa using hmw
  have hmemF : (⟨k, v, i⟩ : ClassMapEntry) ∈ m.entries.filterMap id :=
    hperm.mem_iff.mpr hmemW
  obtain ⟨o, hoMem, hoEq⟩ := List.mem_filterMap.mp hmemF
  have hoMem' : some (⟨k, v, i⟩ : ClassMapEntry) ∈ m.entries := by
    have ho : o = some ⟨k, v, i⟩ := hoEq
    rw [← ho]; exact hoMem
  obtain ⟨s, hsElem⟩ := List.getElem?_of_mem hoMem'
  have hsgetD : m.entries.getD s none = some ⟨k, v, i⟩ := by
    rw [getD_entries_eq, hsElem]; rfl
  obtain ⟨j, hj1, hj2, hj3⟩ := hpath s ⟨k, v, i⟩ hsgetD
  have hj2' : probeB (2 ^ K - 1) (h k % 2 ^ 32) j = s := hj2
  have hj3' : ∀ t, t < j →
      m.entries.getD (probeB (2 ^ K - 1) (h k % 2 ^ 32) t) none ≠ none := hj3
  have hstopj : lookupStop m.entries k (m.allocated - 1) (h k % 2 ^ 32) j = true := by
    unfold lookupStop
    rw [halloc, hj2', hsgetD]
    simp
  obtain ⟨J, hJle, hJrun, hcase⟩ := ClassMap_LookupMember_cases h m k memberOut indexOut
    (show j ≤ 6 + m.allocated by omega) hstopj
  rcases hcase with ⟨hempty, _⟩ | ⟨e, hsome, hename, hres⟩
  · exfalso
    rw [halloc] at hempty
    rcases Nat.lt_or_ge J j with hJj | hJj
    · exact hj3' J hJj hempty
    · have hJeq : J = j := le_antisymm hJle hJj
      rw [hJeq, hj2', hsgetD] at hempty
      cases hempty
  · have heMem : e ∈ m.entries.filterMap id :=
      List.mem_filterMap.mpr ⟨some e, getD_some_mem hsome, rfl⟩
    have heW : e ∈ withIdx pairs 0 := hperm.mem_iff.mp heMem
    obtain ⟨j', hj'idx, hj'get⟩ := mem_withIdx_sound pairs 0 e heW
    have hj'getE : pairs[j']? = some (e.name, e.member) := by
      rw [← List.get?_eq_getElem?]; exact hj'get
    have h1 : (pairs.map Prod.fst)[i]? = some k := by
      rw [List.getElem?_map, hget]; rfl
    have h2 : (pairs.map Prod.fst)[j']? = some k := by
      rw [List.getElem?_map, hj'getE]
      simp [hename]
    have hilt : i < (pairs.map Prod.fst).length := by
      rw [List.length_map]
      exact (List.getElem?_eq_some_iff.mp hget).1
    have hij' : i = j' := List.getElem?_inj hilt hnd (h1.trans h2.symm)
    have hpair : some ((k, v) : Nat × PyObject) = some (e.name, e.member) := by
      rw [← hget, hij', hj'getE]
    obtain ⟨hkk, hvv⟩ := Prod.ext_iff.mp (Option.some_inj.mp hpair)
    have hvv' : v = e.member := hvv
    have hidx : e.index = i := by omega
    rw [hres, ← hvv', hidx]

/-- C2: Absence correctness.  For every table built from a mapping whose
population leaves at least one slot free (as the planner's load factor
guarantees) and every name that is not among the mapping's keys,
`ClassMap_LookupMember` terminates at an empty slot — the empty-slot
`return` — and reports not-found, leaving the caller's output locations
untouched; it never returns a spurious descriptor. -/
theorem classMap_lookup_absent (h : Nat → Nat) (K : Nat) (hK : K ≤ 32)
    (pairs : List (Nat × PyObject)) (hlen : pairs.length < 2 ^ K)
    (k : Nat) (hk : k ∉ pairs.map Prod.fst) :
    ∃ m, insertAll h pairs (ClassMap.init (2 ^ K)) = some m ∧
      ∀ (memberOut : PyObject) (indexOut : Nat),
        ClassMap_LookupMember h m k memberOut indexOut
          = some (.emptySlot, memberOut, indexOut) := by
  obtain ⟨m, hm, hinv⟩ := insertAll_inv h K hK pairs [] (ClassMap.init (2 ^ K))
    (ClassMapInv_init h (2 ^ K)) (by simp; omega)
  rw [List.nil_append] at hinv
  refine ⟨m, hm, ?_⟩
  intro memberOut indexOut
  obtain ⟨halloc, hlenE, hcount, hperm, hpath⟩ := hinv
  have hocc : (m.entries.filterMap id).length = pairs.length :=
    hperm.length_eq.trans (withIdx_length _ _)
  have hltlen : (m.entries.filterMap id).length < m.entries.length := by omega
  obtain ⟨s, hs, hsnone⟩ := exists_none_slot hltlen
  have hsgetD : m.entries.getD s none = none := by
    rw [getD_entries_eq, hsnone]; rfl
  have hh0 : h k % 2 ^ 32 < 2 ^ 32 := Nat.mod_lt _ (by norm_num)
  obtain ⟨i0, hi0, hi0s⟩ := probe_visits_all hK (h k % 2 ^ 32) hh0 s (by omega)
  have hstop0 : lookupStop m.entries k (m.allocated - 1) (h k % 2 ^ 32) i0 = true := by
    unfold lookupStop
    rw [halloc, hi0s, hsgetD]
  obtain ⟨J, hJle, hJrun, hcase⟩ :=
    ClassMap_LookupMember_cases h m k memberOut indexOut (by omega) hstop0
  rcases hcase with ⟨_, hres⟩ | ⟨e, hsome, hename, _⟩
  · exact hres
  · exfalso
    have heW : e ∈ withIdx pairs 0 :=
      hperm.mem_iff.mp (List.mem_filterMap.mpr ⟨some e, getD_some_mem hsome, rfl⟩)
    obtain ⟨j', hj'idx, hj'get⟩ := mem_withIdx_sound pairs 0 e heW
    have hmemk : k ∈ pairs.map Prod.fst := by
      have hj'getE : pairs[j']? = some (e.name, e.member) := by
        rw [← List.get?_eq_getElem?]; exact hj'get
      have hgk : (pairs.map Prod.fst)[j']? = some e.name := by
        rw [List.getElem?_map, hj'getE]; rfl
      rw [hename] at hgk
      exact List.getElem?_mem hgk
    exact hk hmemk

/-- C5: Probe-loop termination.  For every table whose capacity is the
power of two the planner produces and in which at least one slot is
empty (as `count < capacity` guarantees), and every name — hence every
starting hash — the probe loops of both `insert_member` and
`ClassMap_LookupMember` terminate, by reaching an empty slot or a
matching key, within the modelled fuel: they never run forever and never
encounter a full table. -/
theorem probe_loops_terminate (h : Nat → Nat) (m : ClassMap) (K : Nat) (hK : K ≤ 32)
    (halloc : m.allocated = 2 ^ K) (hlenE : m.entries.length = m.allocated)
    (hempty : ∃ s, s < m.entries.length ∧ m.entries[s]? = some none) :
    (∀ (name : Nat) (memberOut : PyObject) (indexOut : Nat),
      ∃ r, ClassMap_LookupMember h m name memberOut indexOut = some r) ∧
    (∀ (name : Nat) (v : PyObject), ∃ m', insert_member h m name v = some m') := by
  obtain ⟨s, hs, hsnone⟩ := hempty
  have hsgetD : m.entries.getD s none = none := by
    rw [getD_entries_eq, hsnone]; rfl
  constructor
  · intro name memberOut indexOut
    have hh0 : h name % 2 ^ 32 < 2 ^ 32 := Nat.mod_lt _ (by norm_num)
    obtain ⟨i0, hi0, hi0s⟩ := probe_visits_all hK (h name % 2 ^ 32) hh0 s (by omega)
    have hstop0 : lookupStop m.entries name (m.allocated - 1) (h name % 2 ^ 32) i0
        = true := by
      unfold lookupStop
      rw [halloc, hi0s, hsgetD]
    obtain ⟨J, hJle, hJrun, hcase⟩ :=
      ClassMap_LookupMember_cases h m name memberOut indexOut (by omega) hstop0
    rcases hcase with ⟨_, hres⟩ | ⟨e, _, _, hres⟩
    · exact ⟨_, hres⟩
    · exact ⟨_, hres⟩
  · intro name v
    have hh0 : h name % 2 ^ 32 < 2 ^ 32 := Nat.mod_lt _ (by norm_num)
    obtain ⟨i0, hi0, hi0s⟩ := probe_visits_all hK (h name % 2 ^ 32) hh0 s (by omega)
    have hex : ∃ i, insertStop m.entries (2 ^ K - 1) (h name % 2 ^ 32) i = true :=
      ⟨i0, by unfold insertStop; rw [hi0s, hsgetD]; rfl⟩
    have hJnone : m.entries.getD (probeB (2 ^ K - 1) (h name % 2 ^ 32) (Nat.find hex)) none
        = none := by
      have hsp := Nat.find_spec hex
      unfold insertStop at hsp
      exact Option.isNone_iff_eq_none.mp hsp
    have hJrun : ∀ i, i < Nat.find hex →
        m.entries.getD (probeB (2 ^ K - 1) (h name % 2 ^ 32) i) none ≠ none := by
      intro i hi hnone
      exact Nat.find_min hex hi (by unfold insertStop; rw [hnone]; rfl)
    have hJle : Nat.find hex ≤ i0 := Nat.find_min' hex (by unfold insertStop; rw [hi0s, hsgetD]; rfl)
    have hscan := insertLoop_scan_start m.entries name v m.member_count (2 ^ K - 1)
      (h name % 2 ^ 32) (2 ^ K + 8) (Nat.find hex) (by omega) hJrun hJnone
    refine ⟨{ allocated := 2 ^ K
              entries := m.entries.set (probeB (2 ^ K - 1) (h name % 2 ^ 32) (Nat.find hex))
                (some ⟨name, v, m.member_count⟩)
              member_count := m.member_count + 1 }, ?_⟩
    unfold insert_member
    rw [halloc, hscan]

/-- C10 (implicit): not-found leaves the outputs untouched.  For every
table and every name not stored in it, any terminating call of
`ClassMap_LookupMember` exits through the empty-slot `return`, and the
caller-supplied `member`/`index` output locations still hold exactly the
values the caller placed there; they are written only on a key match. -/
theorem lookup_notfound_frame (h : Nat → Nat) (m : ClassMap) (k : Nat)
    (hk : ∀ e : ClassMapEntry, some e ∈ m.entries → e.name ≠ k) :
    ∀ (memberOut : PyObject) (indexOut : Nat) (r : LookupExit × PyObject × Nat),
      ClassMap_LookupMember h m k memberOut indexOut = some r →
      r = (.emptySlot, memberOut, indexOut) := by
  intro memberOut indexOut r hr
  exact lookupLoop_frame m.entries k (m.allocated - 1) hk (m.allocated + 8)
    (h k % 2 ^ 32 &&& (m.allocated - 1)) (h k % 2 ^ 32) memberOut indexOut r hr

/-! ### The capacity planner -/

theorem npow2Loop_pow (n : Nat) :
    ∀ fuel i : Nat, ∃ j, i ≤ j ∧ npow2Loop n fuel (2 ^ i) = 2 ^ j := by
  intro fuel
  induction fuel with
  | zero => intro i; exact ⟨i, le_rfl, rfl⟩
  | succ fuel ih =>
      intro i
      by_cases hni : n ≤ 2 ^ i
      · exact ⟨i, le_rfl, by simp [npow2Loop, hni]⟩
      · obtain ⟨j, hij, hj⟩ := ih (i + 1)
        refine ⟨j, by omega, ?_⟩
        simp only [npow2Loop, if_neg hni]
        rw [show 2 * 2 ^ i = 2 ^ (i + 1) by ring]
        exact hj

theorem npow2Loop_ge (n : Nat) :
    ∀ fuel i : Nat, n ≤ 2 ^ (i + fuel) → n ≤ npow2Loop n fuel (2 ^ i) := by
  intro fuel
  induction fuel with
  | zero => intro i hle; simpa using hle
  | succ fuel ih =>
      intro i hle
      by_cases hni : n ≤ 2 ^ i
      · simp only [npow2Loop, if_pos hni]
        exact hni
      · simp only [npow2Loop, if_neg hni]
        rw [show 2 * 2 ^ i = 2 ^ (i + 1) by ring]
        exact ih (i + 1) (by rw [show i + 1 + fuel = i + (fuel + 1) by omega]; exact hle)

theorem npow2Loop_min (n : Nat) :
    ∀ fuel i w : Nat, n ≤ 2 ^ w → i ≤ w → npow2Loop n fuel (2 ^ i) ≤ 2 ^ w := by
  intro fuel
  induction fuel with
  | zero =>
      intro i w hw hiw
      simpa using Nat.pow_le_pow_right (by norm_num) hiw
  | succ fuel ih =>
      intro i w hw hiw
      by_cases hni : n ≤ 2 ^ i
      · simp only [npow2Loop, if_pos hni]
        exact Nat.pow_le_pow_right (by norm_num) hiw
      · simp only [npow2Loop, if_neg hni]
        rw [show 2 * 2 ^ i = 2 ^ (i + 1) by ring]
        have hiw' : i < w := by
          have h1 : 2 ^ i < 2 ^ w := lt_of_lt_of_le (lt_of_not_ge hni) hw
          exact (Nat.pow_lt_pow_iff_right (by norm_num)).mp h1
        exact ih (i + 1) w hw (by omega)

theorem next_power_of_2_pow (n : Nat) : ∃ j, next_power_of_2 n = 2 ^ j := by
  obtain ⟨j, _, hj⟩ := npow2Loop_pow n n 0
  exact ⟨j, hj⟩

theorem le_next_power_of_2 (n : Nat) : n ≤ next_power_of_2 n := by
  have h := npow2Loop_ge n n 0 (by simpa using Nat.le_of_lt (Nat.lt_two_pow n))
  simpa using h

theorem next_power_of_2_min (n w : Nat) (hw : n ≤ 2 ^ w) : next_power_of_2 n ≤ 2 ^ w := by
  have h := npow2Loop_min n n 0 w hw (Nat.zero_le w)
  simpa using h

theorem next_power_of_2_succ_eq (q : Nat) (hq : ∀ j, q ≠ 2 ^ j) :
    next_power_of_2 q = next_power_of_2 (q + 1) := by
  apply le_antisymm
  · obtain ⟨j, hj⟩ := next_power_of_2_pow (q + 1)
    have hge := le_next_power_of_2 (q + 1)
    rw [hj]
    rw [hj] at hge
    exact next_power_of_2_min q j (by omega)
  · obtain ⟨j, hj⟩ := next_power_of_2_pow q
    have hge := le_next_power_of_2 q
    rw [hj] at hge
    have hne : q ≠ 2 ^ j := hq j
    rw [hj]
    exact next_power_of_2_min (q + 1) j (by omega)

/-- The truncated quotient `t * 4 / 3` is never a power of two when the
division is inexact and `t ≥ 3` — the reason the planner's truncating
division agrees with the spec's ceiling through `next_power_of_2`. -/
theorem floor_mul4_div3_not_pow {t : Nat} (ht : 3 ≤ t) (hr : t * 4 % 3 ≠ 0) :
    ∀ j, t * 4 / 3 ≠ 2 ^ j := by
  intro j hj
  have hdm := Nat.div_add_mod (t * 4) 3
  have hmod : t * 4 % 3 < 3 := Nat.mod_lt _ (by norm_num)
  have ht4 : 4 ≤ t := by
    rcases Nat.lt_or_ge t 4 with h4 | h4
    · have ht3' : t = 3 := by omega
      subst ht3'
      norm_num at hr
    · exact h4
  have hq5 : 5 ≤ t * 4 / 3 := by omega
  have hj3 : 3 ≤ j := by
    by_contra hlt
    have h2j : 2 ^ j ≤ 2 ^ 2 := Nat.pow_le_pow_right (by norm_num) (by omega)
    norm_num at h2j
    omega
  have h4dvd : (4 : Nat) ∣ 2 ^ j := by
    have hd : (2 : Nat) ^ 2 ∣ 2 ^ j := Nat.pow_dvd_pow 2 (by omega)
    norm_num at hd
    exact hd
  obtain ⟨mq, hmq⟩ := h4dvd
  rw [hj] at hdm
  omega

theorem planAllocated_eq_ceil {n : Nat} (hn : n < 2 ^ 30) :
    planAllocated n = next_power_of_2 ((max n 3 * 4 + 2) / 3) := by
  unfold planAllocated
  rw [Nat.mod_eq_of_lt (show n < 2 ^ 32 by omega)]
  have ht3 : 3 ≤ max n 3 := le_max_right n 3
  have htlt : max n 3 < 2 ^ 30 := max_lt hn (by norm_num)
  rw [Nat.mod_eq_of_lt (show max n 3 * 4 < 2 ^ 32 by omega)]
  rcases Nat.eq_zero_or_pos (max n 3 * 4 % 3) with hr | hr
  · have hsame : (max n 3 * 4 + 2) / 3 = max n 3 * 4 / 3 := by omega
    rw [hsame]
  · have hceil : (max n 3 * 4 + 2) / 3 = max n 3 * 4 / 3 + 1 := by omega
    rw [hceil]
    exact next_power_of_2_succ_eq _ (floor_mul4_div3_not_pow ht3 (by omega))

/-- The planner's capacity really does bound the load factor and is a
power of two not exceeding `2 ^ 32`, in the overflow-free regime. -/
theorem planAllocated_bounds {n : Nat} (hn : n < 2 ^ 30) :
    4 * n ≤ 3 * planAllocated n ∧ ∃ K, K ≤ 32 ∧ planAllocated n = 2 ^ K := by
  unfold planAllocated
  rw [Nat.mod_eq_of_lt (show n < 2 ^ 32 by omega)]
  have ht3 : 3 ≤ max n 3 := le_max_right n 3
  have htn : n ≤ max n 3 := le_max_left n 3
  have htlt : max n 3 < 2 ^ 30 := max_lt hn (by norm_num)
  rw [Nat.mod_eq_of_lt (show max n 3 * 4 < 2 ^ 32 by omega)]
  have hge := le_next_power_of_2 (max n 3 * 4 / 3)
  obtain ⟨j, hj⟩ := next_power_of_2_pow (max n 3 * 4 / 3)
  have hdm := Nat.div_add_mod (max n 3 * 4) 3
  constructor
  · rcases Nat.eq_zero_or_pos (max n 3 * 4 % 3) with hr | hr
    · omega
    · have hnp := floor_mul4_div3_not_pow ht3 (by omega)
      have hneq : next_power_of_2 (max n 3 * 4 / 3) ≠ max n 3 * 4 / 3 := by
        rw [hj]
        intro hqq
        exact hnp j hqq.symm
      omega
  · have hq32 : max n 3 * 4 / 3 ≤ 2 ^ 32 := by omega
    have hle := next_power_of_2_min (max n 3 * 4 / 3) 32 hq32
    refine ⟨j, ?_, hj⟩
    rw [hj] at hle
    exact (Nat.pow_le_pow_iff_right (by norm_num)).mp hle

/-- C3 (counterexample): the claim fails as stated at `n = 2 ^ 30`
entries.  There `count * 4` wraps around the `uint32_t` to `0`, the code
plans capacity `next_power_of_2 0 = 1`, while the claimed formula
`next_power_of_two(ceil(max(n,3) * 4 / 3))` gives `2 ^ 31`. -/
theorem planAllocated_overflow_cex :
    planAllocated (2 ^ 30) = 1 ∧
    next_power_of_2 ((max (2 ^ 30) 3 * 4 + 2) / 3) = 2 ^ 31 ∧
    (1 : Nat) ≠ 2 ^ 31 := by
  refine ⟨by decide, by decide, by decide⟩

/-- C3 (amended): for every entry count `n < 2 ^ 30` — so that the
32-bit product `count * 4` cannot wrap — the planned capacity equals
`next_power_of_two(ceil(max(n, 3) * 4 / 3))` (the ceiling written as
`(max n 3 * 4 + 2) / 3`); in particular for `n = 3` the capacity is `4`,
and the same capacity `4` results for an empty mapping (`n = 0`). -/
theorem planAllocated_spec :
    (∀ n : Nat, n < 2 ^ 30 →
      planAllocated n = next_power_of_2 ((max n 3 * 4 + 2) / 3)) ∧
    planAllocated 3 = 4 ∧ planAllocated 0 = 4 :=
  ⟨fun _ hn => planAllocated_eq_ceil hn, by decide, by decide⟩

/-- C6 (counterexample): for hash `32` and capacity `4` the first four
probed buckets are `0, 1, 3, 0` — bucket `0` repeats before bucket `2`
has ever been visited, refuting "visits every slot at most once before
any slot repeats". -/
theorem probe_revisit_cex :
    (List.range 4).map (probeB 3 32) = [0, 1, 3, 0] ∧
    ¬ ((List.range 4).map (probeB 3 32)).Nodup ∧
    2 ∉ (List.range 4).map (probeB 3 32) := by
  refine ⟨by decide, by decide, by decide⟩

/-- C6 (amended): for every 32-bit hash and power-of-two capacity
`2 ^ K` with `K ≤ 32`, a slot may repeat before all slots are seen, but
the probe sequence still visits every slot of the table within its first
`7 + capacity` steps: after at most 7 iterations the shifted hash is
exhausted and the recurrence becomes the full-period map
`bucket = (5 * bucket + 1) mod capacity`, whose next `capacity` probes
(steps `7` through `6 + capacity`) are pairwise distinct. -/
theorem probe_coverage_amended (K h0 : Nat) (hK : K ≤ 32) (hh : h0 < 2 ^ 32) :
    (∀ s, s < 2 ^ K → ∃ i, i ≤ 6 + 2 ^ K ∧ probeB (2 ^ K - 1) h0 i = s) ∧
    ((List.range (2 ^ K)).map (fun j => probeB (2 ^ K - 1) h0 (7 + j))).Nodup := by
  constructor
  · exact fun s hs => probe_visits_all hK h0 hh s hs
  · apply List.Nodup.map_on ?_ (List.nodup_range _)
    intro x hx y hy hxy
    rw [List.mem_range] at hx hy
    rw [probeB_seven_add hK h0 hh, probeB_seven_add hK h0 hh] at hxy
    rcases Nat.lt_trichotomy x y with hlt | heq | hgt
    · exact absurd hxy (lcg_iterate_ne K _ hlt hy)
    · exact heq
    · exact absurd hxy.symm (lcg_iterate_ne K _ hgt hx)

/-! ### ClassMap_new-level results -/

theorem buildLoop_eq_insertAll (h : Nat → Nat) :
    ∀ (pairs : List (PyObject × PyObject)) (m : ClassMap),
      (∀ p ∈ pairs, PyString_Check p.1 = true ∧ Member_Check p.2 = true) →
      buildLoop h pairs m =
        match insertAll h (pairs.map (fun p => (p.1.strId, p.2))) m with
        | none => .stuck
        | some m' => .ok m' := by
  intro pairs
  induction pairs with
  | nil => intro m _; rfl
  | cons p rest ih =>
      intro m hty
      obtain ⟨key, value⟩ := p
      obtain ⟨hks, hvm⟩ := hty (key, value) (by simp)
      simp only [buildLoop, hks, hvm, Bool.not_true, Bool.false_eq_true, if_false,
        List.map_cons, insertAll]
      cases him : insert_member h m key.strId value with
      | none => rfl
      | some m1 => exact ih m1 (fun q hq => hty q (by simp [hq]))

theorem buildLoop_append (h : Nat → Nat) :
    ∀ (a b : List (PyObject × PyObject)) (m : ClassMap),
      buildLoop h (a ++ b) m =
        match buildLoop h a m with
        | .ok m' => buildLoop h b m'
        | .typeFail o s => .typeFail o s
        | .stuck => .stuck := by
  intro a
  induction a with
  | nil => intro b m; rfl
  | cons p a' ih =>
      intro b m
      obtain ⟨key, value⟩ := p
      by_cases hks : PyString_Check key = true
      · by_cases hvm : Member_Check value = true
        · simp only [List.cons_append, buildLoop, hks, hvm, Bool.not_true,
            Bool.false_eq_true, if_false]
          cases him : insert_member h m key.strId value with
          | none => rfl
          | some m1 => exact ih b m1
        · have hvm' : Member_Check value = false := by
            cases hcv : Member_Check value
            · rfl
            · exact absurd hcv hvm
          simp [List.cons_append, buildLoop, hks, hvm']
      · have hks' : PyString_Check key = false := by
          cases hck : PyString_Check key
          · rfl
          · exact absurd hck hks
        simp [List.cons_append, buildLoop, hks']

/-- C4: Load-factor invariant.  For every table constructed by
`ClassMap_new` from a mapping of fewer than `2 ^ 30` well-typed entries
(the regime in which the planner's 32-bit arithmetic cannot wrap),
construction succeeds, `count ≤ capacity * 3/4` holds for the final
table, the `allocated` field is a power of two, and the same load-factor
bound holds at every intermediate step of construction — the state after
populating any prefix of the mapping. -/
theorem classMap_new_load_factor (h : Nat → Nat) (pairs : List (PyObject × PyObject))
    (hty : ∀ p ∈ pairs, PyString_Check p.1 = true ∧ Member_Check p.2 = true)
    (hsz : pairs.length < 2 ^ 30) :
    ∃ m, ClassMap_new h pairs = .ok m ∧
      m.member_count ≤ m.allocated * 3 / 4 ∧
      (∃ K, K ≤ 32 ∧ m.allocated = 2 ^ K) ∧
      ∀ i, i ≤ pairs.length →
        ∃ mi, buildLoop h (pairs.take i) (ClassMap.init (planAllocated pairs.length))
            = .ok mi ∧
          mi.allocated = planAllocated pairs.length ∧
          mi.member_count = i ∧
          mi.member_count ≤ mi.allocated * 3 / 4 := by
  obtain ⟨hload, K, hK32, hKeq⟩ := planAllocated_bounds hsz
  have hcap : pairs.length ≤ 2 ^ K := by omega
  have hbound : ∀ i, i ≤ pairs.length → i ≤ 2 ^ K * 3 / 4 := by
    intro i hi
    rw [Nat.le_div_iff_mul_le (by norm_num)]
    omega
  have hall : ∀ i, i ≤ pairs.length →
      ∃ mi, buildLoop h (pairs.take i) (ClassMap.init (planAllocated pairs.length))
          = .ok mi ∧
        mi.allocated = planAllocated pairs.length ∧
        mi.member_count = i ∧
        mi.member_count ≤ mi.allocated * 3 / 4 := by
    intro i hi
    have hty' : ∀ p ∈ pairs.take i,
        PyString_Check p.1 = true ∧ Member_Check p.2 = true :=
      fun p hp => hty p (List.take_subset i pairs hp)
    have hlenmap : ((pairs.take i).map (fun p => (p.1.strId, p.2))).length = i := by
      rw [List.length_map, List.length_take]
      omega
    obtain ⟨mi, hmi, hinv⟩ := insertAll_inv h K hK32
      ((pairs.take i).map (fun p => (p.1.strId, p.2))) [] (ClassMap.init (2 ^ K))
      (ClassMapInv_init h (2 ^ K)) (by rw [List.length_nil, hlenmap]; omega)
    rw [List.nil_append] at hinv
    obtain ⟨halloc', hlen', hcount', _, _⟩ := hinv
    refine ⟨mi, ?_, ?_, ?_, ?_⟩
    · rw [hKeq, buildLoop_eq_insertAll h (pairs.take i) (ClassMap.init (2 ^ K)) hty', hmi]
    · rw [halloc', hKeq]
    · rw [hcount', hlenmap]
    · rw [halloc', hcount', hlenmap]
      exact hbound i hi
  obtain ⟨m, hm, hma, hmc, hmb⟩ := hall pairs.length le_rfl
  rw [List.take_length] at hm
  exact ⟨m, hm, hmb, ⟨K, hK32, by rw [hma, hKeq]⟩, hall⟩

/-- C8: Index density.  For every table `ClassMap_new` builds from a
mapping of well-typed entries (fewer than `2 ^ 30`, the overflow-free
regime), the multiset of `index` values stored across all occupied slots
is exactly `{0, 1, ..., count - 1}` — no gaps, no duplicates — and each
stored key carries the index equal to its position in the mapping's
iteration order, whatever that order is. -/
theorem classMap_new_index_density (h : Nat → Nat) (pairs : List (PyObject × PyObject))
    (hty : ∀ p ∈ pairs, PyString_Check p.1 = true ∧ Member_Check p.2 = true)
    (hsz : pairs.length < 2 ^ 30) :
    ∃ m, ClassMap_new h pairs = .ok m ∧
      m.member_count = pairs.length ∧
      ((m.entries.filterMap id).map (fun e => e.index)).Perm
        (List.range m.member_count) ∧
      ∀ s e, m.entries.getD s none = some e →
        (pairs.map (fun p => (p.1.strId, p.2)))[e.index]? = some (e.name, e.member) := by
  obtain ⟨hload, K, hK32, hKeq⟩ := planAllocated_bounds hsz
  have hcap : pairs.length ≤ 2 ^ K := by omega
  have hlenmap : (pairs.map (fun p => (p.1.strId, p.2))).length = pairs.length :=
    List.length_map _ _
  obtain ⟨m, hm, hinv⟩ := insertAll_inv h K hK32
    (pairs.map (fun p => (p.1.strId, p.2))) [] (ClassMap.init (2 ^ K))
    (ClassMapInv_init h (2 ^ K)) (by rw [List.length_nil, hlenmap]; omega)
  rw [List.nil_append] at hinv
  obtain ⟨halloc, hlen, hcount, hperm, hpath⟩ := hinv
  refine ⟨m, ?_, ?_, ?_, ?_⟩
  · show buildLoop h pairs (ClassMap.init (planAllocated pairs.length)) = .ok m
    rw [hKeq, buildLoop_eq_insertAll h pairs (ClassMap.init (2 ^ K)) hty, hm]
  · rw [hcount, hlenmap]
  · have hmapped := hperm.map (fun e => e.index)
    rw [map_index_withIdx] at hmapped
    rw [hcount, List.range_eq_range']
    exact hmapped
  · intro s e hse
    have heW : e ∈ withIdx (pairs.map (fun p => (p.1.strId, p.2))) 0 :=
      hperm.mem_iff.mp (List.mem_filterMap.mpr ⟨some e, getD_some_mem hse, rfl⟩)
    obtain ⟨j, hjidx, hjget⟩ := mem_withIdx_sound _ 0 e heW
    have hidx : e.index = j := by omega
    rw [hidx, ← List.get?_eq_getElem?]
    exact hjget

/-- C7: Construction-time type error.  For any input mapping containing
an entry whose key is not a string or whose value is not a `Member`
(while the entries before it are well-typed and the mapping is small
enough for the planner's arithmetic, `< 2 ^ 30` entries),
`ClassMap_new` fails with the `py_expected_type_fail` error identifying
the offending object and its expected type; no table — partially built
or otherwise — is returned to the caller. -/
theorem classMap_new_type_error (h : Nat → Nat) (good : List (PyObject × PyObject))
    (k v : PyObject) (rest : List (PyObject × PyObject))
    (hgood : ∀ p ∈ good, PyString_Check p.1 = true ∧ Member_Check p.2 = true)
    (hbad : ¬ (PyString_Check k = true ∧ Member_Check v = true))
    (hsz : (good ++ (k, v) :: rest).length < 2 ^ 30) :
    ClassMap_new h (good ++ (k, v) :: rest)
      = .typeFail (if PyString_Check k then v else k)
          (if PyString_Check k then "Member" else "str") ∧
    ∀ m, ClassMap_new h (good ++ (k, v) :: rest) ≠ .ok m := by
  have hmain : ClassMap_new h (good ++ (k, v) :: rest)
      = .typeFail (if PyString_Check k then v else k)
          (if PyString_Check k then "Member" else "str") := by
    obtain ⟨hload, K, hK32, hKeq⟩ := planAllocated_bounds hsz
    have hlenall : good.length < (good ++ (k, v) :: rest).length := by
      rw [List.length_append, List.length_cons]
      omega
    have hcap : (good ++ (k, v) :: rest).length ≤ 2 ^ K := by omega
    have hlenmap : (good.map (fun p => (p.1.strId, p.2))).length = good.length :=
      List.length_map _ _
    obtain ⟨mg, hmg, hinvg⟩ := insertAll_inv h K hK32
      (good.map (fun p => (p.1.strId, p.2))) [] (ClassMap.init (2 ^ K))
      (ClassMapInv_init h (2 ^ K)) (by rw [List.length_nil, hlenmap]; omega)
    show buildLoop h (good ++ (k, v) :: rest)
        (ClassMap.init (planAllocated (good ++ (k, v) :: rest).length)) = _
    rw [hKeq, buildLoop_append,
      buildLoop_eq_insertAll h good (ClassMap.init (2 ^ K)) hgood, hmg]
    by_cases hks : PyString_Check k = true
    · have hvm : Member_Check v = false := by
        cases hcv : Member_Check v
        · rfl
        · exact absurd ⟨hks, hcv⟩ hbad
      simp [buildLoop, hks, hvm]
    · have hks' : PyString_Check k = false := by
        cases hck : PyString_Check k
        · rfl
        · exact absurd hck hks
      simp [buildLoop, hks']
  refine ⟨hmain, ?_⟩
  intro m hm
  rw [hmain] at hm
  exact BuildResult.noConfusion hm

/-! ### Clear and traverse -/

theorem mem_traverse_list :
    ∀ (l : List (Option ClassMapEntry)) (r : Nat ⊕ PyObject),
      r ∈ l.foldr (fun slot acc =>
          match slot with
          | none => acc
          | some entry => Sum.inl entry.name :: Sum.inr entry.member :: acc) [] ↔
      ∃ e : ClassMapEntry, some e ∈ l ∧ (r = .inl e.name ∨ r = .inr e.member) := by
  intro l
  induction l with
  | nil =>
      intro r
      simp
  | cons o rest ih =>
      intro r
      cases o with
      | none =>
          simp only [List.foldr_cons]
          rw [ih r]
          constructor
          · rintro ⟨e, he, hr⟩
            exact ⟨e, List.mem_cons_of_mem _ he, hr⟩
          · rintro ⟨e, he, hr⟩
            rcases List.mem_cons.mp he with heq | hmem
            · exact Option.noConfusion heq
            · exact ⟨e, hmem, hr⟩
      | some b =>
          simp only [List.foldr_cons, List.mem_cons]
          rw [ih r]
          constructor
          · rintro (rfl | rfl | ⟨e, he, hr⟩)
            · exact ⟨b, Or.inl rfl, Or.inl rfl⟩
            · exact ⟨b, Or.inl rfl, Or.inr rfl⟩
            · exact ⟨e, Or.inr he, hr⟩
          · rintro ⟨e, heq | hmem, hr⟩
            · have heb : e = b := Option.some_inj.mp heq
              subst heb
              rcases hr with rfl | rfl
              · exact Or.inl rfl
              · exact Or.inr (Or.inl rfl)
            · exact Or.inr (Or.inr ⟨e, hmem, hr⟩)

theorem traverse_of_all_none :
    ∀ l : List (Option ClassMapEntry),
      (l.map (fun _ => (none : Option ClassMapEntry))).foldr (fun slot acc =>
          match slot with
          | none => acc
          | some entry => Sum.inl entry.name :: Sum.inr entry.member :: acc) [] = [] := by
  intro l
  induction l with
  | nil => rfl
  | cons o rest ih => simpa [List.map_cons] using ih

/-- C9: Clear idempotence and traverse coverage.  For every table state:
`ClassMap_clear` empties every slot (dropping, in the model, the
reference the table held on every stored key and value) while leaving
the allocation in place; applying it a second time yields exactly the
state of applying it once; `ClassMap_traverse` visits exactly the key
and the value of every occupied slot and nothing else; and the two
compose safely during teardown in either order — traversal after
clearing visits nothing, and traversal (a pure read) never changes the
state clearing acts on. -/
theorem classMap_clear_traverse (m : ClassMap) :
    (∀ s, (ClassMap_clear m).entries.getD s none = none) ∧
    ClassMap_clear (ClassMap_clear m) = ClassMap_clear m ∧
    (ClassMap_clear m).allocated = m.allocated ∧
    (∀ r, r ∈ ClassMap_traverse m ↔
      ∃ e : ClassMapEntry, some e ∈ m.entries ∧ (r = .inl e.name ∨ r = .inr e.member)) ∧
    ClassMap_traverse (ClassMap_clear m) = [] := by
  refine ⟨?_, ?_, rfl, ?_, ?_⟩
  · intro s
    rw [getD_entries_eq]
    show (m.entries.map (fun _ => (none : Option ClassMapEntry)))[s]?.getD none = none
    rw [List.getElem?_map]
    cases m.entries[s]? <;> rfl
  · show ClassMap.mk _ ((m.entries.map _).map _) _ = ClassMap.mk _ (m.entries.map _) _
    rw [List.map_map]
    rfl
  · intro r
    exact mem_traverse_list m.entries r
  · exact traverse_of_all_none m.entries

/-! ### Concrete witnesses -/

/-- Witness for C1 at the three-member mapping of spec scenario 1. -/
theorem classMap_roundtrip_witness :
    (2 ≤ 32) ∧
    (([(1, PyObject.member 11), (2, PyObject.member 12),
        (3, PyObject.member 13)].map Prod.fst).Nodup) ∧
    ([(1, PyObject.member 11), (2, PyObject.member 12),
        (3, PyObject.member 13)].length ≤ 2 ^ 2) ∧
    (∃ m, insertAll (fun n => n)
        [(1, PyObject.member 11), (2, PyObject.member 12), (3, PyObject.member 13)]
        (ClassMap.init (2 ^ 2)) = some m ∧
      ∀ (i k : Nat) (v : PyObject) (memberOut : PyObject) (indexOut : Nat),
        [(1, PyObject.member 11), (2, PyObject.member 12),
          (3, PyObject.member 13)][i]? = some (k, v) →
        ClassMap_LookupMember (fun n => n) m k memberOut indexOut = some (.found, v, i)) :=
  ⟨by decide, by decide, by decide,
    classMap_roundtrip (fun n => n) 2 (by decide) _ (by decide) (by decide)⟩

/-- Witness for C2: the name 5 was never inserted. -/
theorem classMap_lookup_absent_witness :
    (2 ≤ 32) ∧
    ([(1, PyObject.member 11), (2, PyObject.member 12),
        (3, PyObject.member 13)].length < 2 ^ 2) ∧
    (5 ∉ [(1, PyObject.member 11), (2, PyObject.member 12),
        (3, PyObject.member 13)].map Prod.fst) ∧
    (∃ m, insertAll (fun n => n)
        [(1, PyObject.member 11), (2, PyObject.member 12), (3, PyObject.member 13)]
        (ClassMap.init (2 ^ 2)) = some m ∧
      ∀ (memberOut : PyObject) (indexOut : Nat),
        ClassMap_LookupMember (fun n => n) m 5 memberOut indexOut
          = some (.emptySlot, memberOut, indexOut)) :=
  ⟨by decide, by decide, by decide,
    classMap_lookup_absent (fun n => n) 2 (by decide) _ (by decide) 5 (by decide)⟩

/-- Witness for C3 (amended) at `n = 5`. -/
theorem planAllocated_spec_witness :
    5 < 2 ^ 30 ∧ planAllocated 5 = next_power_of_2 ((max 5 3 * 4 + 2) / 3) :=
  ⟨by decide, planAllocated_spec.1 5 (by decide)⟩

/-- Witness for C4 at the three-member mapping. -/
theorem classMap_new_load_factor_witness :
    (∀ p ∈ [(PyObject.str 1, PyObject.member 11), (PyObject.str 2, PyObject.member 12),
        (PyObject.str 3, PyObject.member 13)],
      PyString_Check p.1 = true ∧ Member_Check p.2 = true) ∧
    ([(PyObject.str 1, PyObject.member 11), (PyObject.str 2, PyObject.member 12),
        (PyObject.str 3, PyObject.member 13)].length < 2 ^ 30) ∧
    (∃ m, ClassMap_new (fun n => n)
        [(PyObject.str 1, PyObject.member 11), (PyObject.str 2, PyObject.member 12),
          (PyObject.str 3, PyObject.member 13)] = .ok m ∧
      m.member_count ≤ m.allocated * 3 / 4 ∧
      (∃ K, K ≤ 32 ∧ m.allocated = 2 ^ K) ∧
      ∀ i, i ≤ [(PyObject.str 1, PyObject.member 11), (PyObject.str 2, PyObject.member 12),
          (PyObject.str 3, PyObject.member 13)].length →
        ∃ mi, buildLoop (fun n => n)
            ([(PyObject.str 1, PyObject.member 11), (PyObject.str 2, PyObject.member 12),
              (PyObject.str 3, PyObject.member 13)].take i)
            (ClassMap.init (planAllocated
              [(PyObject.str 1, PyObject.member 11), (PyObject.str 2, PyObject.member 12),
                (PyObject.str 3, PyObject.member 13)].length)) = .ok mi ∧
          mi.allocated = planAllocated
            [(PyObject.str 1, PyObject.member 11), (PyObject.str 2, PyObject.member 12),
              (PyObject.str 3, PyObject.member 13)].length ∧
          mi.member_count = i ∧
          mi.member_count ≤ mi.allocated * 3 / 4) :=
  ⟨by decide, by decide,
    classMap_new_load_factor (fun n => n) _ (by decide) (by decide)⟩

/-- Witness for C5 at the empty 4-slot table. -/
theorem probe_loops_terminate_witness :
    ((ClassMap.init 4).allocated = 2 ^ 2) ∧
    ((ClassMap.init 4).entries.length = (ClassMap.init 4).allocated) ∧
    (∃ s, s < (ClassMap.init 4).entries.length ∧ (ClassMap.init 4).entries[s]? = some none) ∧
    ((∀ (name : Nat) (memberOut : PyObject) (indexOut : Nat),
      ∃ r, ClassMap_LookupMember (fun n => n) (ClassMap.init 4) name memberOut indexOut
        = some r) ∧
    (∀ (name : Nat) (v : PyObject),
      ∃ m', insert_member (fun n => n) (ClassMap.init 4) name v = some m')) :=
  ⟨by decide, by decide, ⟨0, by decide, by decide⟩,
    probe_loops_terminate (fun n => n) (ClassMap.init 4) 2 (by decide) (by decide) (by decide)
      ⟨0, by decide, by decide⟩⟩

/-- Witness for C6 (amended) at hash 32 and capacity 4. -/
theorem probe_coverage_amended_witness :
    (2 ≤ 32) ∧ (32 < 2 ^ 32) ∧
    ((∀ s, s < 2 ^ 2 → ∃ i, i ≤ 6 + 2 ^ 2 ∧ probeB (2 ^ 2 - 1) 32 i = s) ∧
      ((List.range (2 ^ 2)).map (fun j => probeB (2 ^ 2 - 1) 32 (7 + j))).Nodup) :=
  ⟨by decide, by decide, probe_coverage_amended 2 32 (by decide) (by decide)⟩

/-- Witness for C7: a non-string key after one valid entry. -/
theorem classMap_new_type_error_witness :
    (∀ p ∈ [(PyObject.str 1, PyObject.member 11)],
      PyString_Check p.1 = true ∧ Member_Check p.2 = true) ∧
    (¬ (PyString_Check (PyObject.other 7) = true ∧ Member_Check (PyObject.member 12) = true)) ∧
    (([(PyObject.str 1, PyObject.member 11)] ++
        (PyObject.other 7, PyObject.member 12) :: []).length < 2 ^ 30) ∧
    (ClassMap_new (fun n => n)
        ([(PyObject.str 1, PyObject.member 11)] ++ (PyObject.other 7, PyObject.member 12) :: [])
      = .typeFail (if PyString_Check (PyObject.other 7) then PyObject.member 12
            else PyObject.other 7)
          (if PyString_Check (PyObject.other 7) then "Member" else "str") ∧
      ∀ m, ClassMap_new (fun n => n)
          ([(PyObject.str 1, PyObject.member 11)] ++
            (PyObject.other 7, PyObject.member 12) :: []) ≠ .ok m) :=
  ⟨by decide, by decide, by decide,
    classMap_new_type_error (fun n => n) _ (PyObject.other 7) (PyObject.member 12) []
      (by decide) (by decide) (by decide)⟩

/-- Witness for C8 at the three-member mapping. -/
theorem classMap_new_index_density_witness :
    (∀ p ∈ [(PyObject.str 1, PyObject.member 11), (PyObject.str 2, PyObject.member 12),
        (PyObject.str 3, PyObject.member 13)],
      PyString_Check p.1 = true ∧ Member_Check p.2 = true) ∧
    ([(PyObject.str 1, PyObject.member 11), (PyObject.str 2, PyObject.member 12),
        (PyObject.str 3, PyObject.member 13)].length < 2 ^ 30) ∧
    (∃ m, ClassMap_new (fun n => n)
        [(PyObject.str 1, PyObject.member 11), (PyObject.str 2, PyObject.member 12),
          (PyObject.str 3, PyObject.member 13)] = .ok m ∧
      m.member_count = [(PyObject.str 1, PyObject.member 11),
        (PyObject.str 2, PyObject.member 12), (PyObject.str 3, PyObject.member 13)].length ∧
      ((m.entries.filterMap id).map (fun e => e.index)).Perm
        (List.range m.member_count) ∧
      ∀ s e, m.entries.getD s none = some e →
        ([(PyObject.str 1, PyObject.member 11), (PyObject.str 2, PyObject.member 12),
          (PyObject.str 3, PyObject.member 13)].map
            (fun p => (p.1.strId, p.2)))[e.index]? = some (e.name, e.member)) :=
  ⟨by decide, by decide,
    classMap_new_index_density (fun n => n) _ (by decide) (by decide)⟩

/-- Witness for C9 at a one-member table. -/
theorem classMap_clear_traverse_witness :
    (∀ s, (ClassMap_clear ⟨4, [some ⟨1, PyObject.member 11, 0⟩, none, none, none], 1⟩).entries.getD
        s none = none) ∧
    ClassMap_clear (ClassMap_clear ⟨4, [some ⟨1, PyObject.member 11, 0⟩, none, none, none], 1⟩)
      = ClassMap_clear ⟨4, [some ⟨1, PyObject.member 11, 0⟩, none, none, none], 1⟩ ∧
    (ClassMap_clear ⟨4, [some ⟨1, PyObject.member 11, 0⟩, none, none, none], 1⟩).allocated
      = (⟨4, [some ⟨1, PyObject.member 11, 0⟩, none, none, none], 1⟩ : ClassMap).allocated ∧
    (∀ r, r ∈ ClassMap_traverse ⟨4, [some ⟨1, PyObject.member 11, 0⟩, none, none, none], 1⟩ ↔
      ∃ e : ClassMapEntry,
        some e ∈ (⟨4, [some ⟨1, PyObject.member 11, 0⟩, none, none, none], 1⟩ : ClassMap).entries ∧
        (r = .inl e.name ∨ r = .inr e.member)) ∧
    ClassMap_traverse (ClassMap_clear ⟨4, [some ⟨1, PyObject.member 11, 0⟩, none, none, none], 1⟩)
      = [] :=
  classMap_clear_traverse ⟨4, [some ⟨1, PyObject.member 11, 0⟩, none, none, none], 1⟩

/-- Witness for C10 at the empty 4-slot table and name 9. -/
theorem lookup_notfound_frame_witness :
    (∀ e : ClassMapEntry, some e ∈ (ClassMap.init 4).entries → e.name ≠ 9) ∧
    (∀ (memberOut : PyObject) (indexOut : Nat) (r : LookupExit × PyObject × Nat),
      ClassMap_LookupMember (fun n => n) (ClassMap.init 4) 9 memberOut indexOut = some r →
      r = (.emptySlot, memberOut, indexOut)) := by
  have hk : ∀ e : ClassMapEntry, some e ∈ (ClassMap.init 4).entries → e.name ≠ 9 := by
    intro e he
    have hrep : some e ∈ List.replicate 4 (none : Option ClassMapEntry) := he
    rw [List.mem_replicate] at hrep
    exact Option.noConfusion hrep.2
  exact ⟨hk, lookup_notfound_frame (fun n => n) (ClassMap.init 4) 9 hk⟩
